import Mathlib

/-!
Binary fuse filter serialization

A shallow embedding of the two codecs of the repository:

* `serialization.go`    : the portable codec, namespace `Portable`,
* `serialization_le.go` : the fast-path codec, namespace `FastPath`; the same
  two Go functions `Save` and `LoadBinaryFuse` under the little-endian build
  tag.

Machine integers are natural numbers, truncated with `%` where the Go code
converts. A byte is a natural number below 256. Go's `int` is taken to be 64
bits wide, so that `int(fpLen) * size` cannot overflow, and `make` is taken
to succeed. The native byte order of the host, `nativeEndian()`, is a
parameter `native` of both codecs; the fast-path codec is built for
little-endian hosts only, where `native = LittleEndian`.
-/

namespace XorFilter

/-! ## Data model -/

/-- Modelled from the spec: the type `Endianness` is declared outside the given
source files; the wire table gives it as a one-byte enumeration. -/
abbrev Endianness := Nat

/-- Modelled from the spec: the tag value of little-endian fingerprints, `0`. -/
abbrev LittleEndian : Endianness := 0

/-- Modelled from the spec: the tag value of big-endian fingerprints, `1`. -/
abbrev BigEndian : Endianness := 1

/-- Modelled from the spec: the struct `BinaryFuse[T]` is declared outside the
given source files; these are the seven fields the two codecs read and write.
`Seed` is a `uint64`, the four geometry fields are `uint32`, a fingerprint is
a `T` (an unsigned integer of `fpSize` bytes), the tag is one byte. -/
structure BinaryFuse where
  Seed : Nat
  SegmentLength : Nat
  SegmentLengthMask : Nat
  SegmentCount : Nat
  SegmentCountLength : Nat
  Fingerprints : List Nat
  FingerprintsEndianness : Endianness
deriving DecidableEq, Repr

/-- The field values of `f` fit the machine types of `BinaryFuse[T]`, for a
fingerprint type `T` of `fpSize` bytes. -/
def BinaryFuse.InRange (fpSize : Nat) (f : BinaryFuse) : Prop :=
  f.Seed < 2 ^ 64 ∧ f.SegmentLength < 2 ^ 32 ∧ f.SegmentLengthMask < 2 ^ 32 ∧
  f.SegmentCount < 2 ^ 32 ∧ f.SegmentCountLength < 2 ^ 32 ∧
  f.FingerprintsEndianness < 2 ^ 8 ∧
  ∀ fp ∈ f.Fingerprints, fp < 2 ^ (8 * fpSize)

/-- Every element of a byte stream is a byte. -/
def IsBytes (b : List Nat) : Prop := ∀ x ∈ b, x < 256

/-! ## Byte orders (`encoding/binary`) -/

/-- The `size` low bytes of `v`, least significant first. -/
def leBytes : Nat → Nat → List Nat
  | 0, _ => []
  | size + 1, v => v % 256 :: leBytes size (v / 256)

/-- The `size` low bytes of `v`, most significant first. -/
def beBytes (size v : Nat) : List Nat := (leBytes size v).reverse

/-- The value of a byte sequence read least significant byte first. -/
def leValue : List Nat → Nat
  | [] => 0
  | b :: bs => b + 256 * leValue bs

/-- The value of a byte sequence read most significant byte first. -/
def beValue (bs : List Nat) : Nat := leValue bs.reverse

/-- The bytes a value of `size` bytes occupies in memory on a host of native
order `native`. -/
def memBytes (native : Endianness) (size v : Nat) : List Nat :=
  if native = LittleEndian then leBytes size v else beBytes size v

/-- The value held by a memory region on a host of native order `native`. -/
def memValue (native : Endianness) (bs : List Nat) : Nat :=
  if native = LittleEndian then leValue bs else beValue bs

/-- Go `binary.LittleEndian.PutUint16(b, v)`. -/
def LittleEndian_PutUint16 (b : List Nat) (v : Nat) : List Nat :=
  (b.set 0 (v % 256)).set 1 (v / 2 ^ 8 % 256)

/-- Go `binary.BigEndian.PutUint16(b, v)`. -/
def BigEndian_PutUint16 (b : List Nat) (v : Nat) : List Nat :=
  (b.set 0 (v / 2 ^ 8 % 256)).set 1 (v % 256)

/-- Go `binary.LittleEndian.PutUint32(b, v)`. -/
def LittleEndian_PutUint32 (b : List Nat) (v : Nat) : List Nat :=
  (((b.set 0 (v % 256)).set 1 (v / 2 ^ 8 % 256)).set 2 (v / 2 ^ 16 % 256)).set 3
    (v / 2 ^ 24 % 256)

/-- Go `binary.BigEndian.PutUint32(b, v)`. -/
def BigEndian_PutUint32 (b : List Nat) (v : Nat) : List Nat :=
  (((b.set 0 (v / 2 ^ 24 % 256)).set 1 (v / 2 ^ 16 % 256)).set 2 (v / 2 ^ 8 % 256)).set 3
    (v % 256)

/-- Go `binary.LittleEndian.Uint16(b)`. -/
def LittleEndian_Uint16 (b : List Nat) : Nat :=
  b.getD 0 0 + b.getD 1 0 * 2 ^ 8

/-- Go `binary.BigEndian.Uint16(b)`. -/
def BigEndian_Uint16 (b : List Nat) : Nat :=
  b.getD 1 0 + b.getD 0 0 * 2 ^ 8

/-- Go `binary.LittleEndian.Uint32(b)`. -/
def LittleEndian_Uint32 (b : List Nat) : Nat :=
  b.getD 0 0 + b.getD 1 0 * 2 ^ 8 + b.getD 2 0 * 2 ^ 16 + b.getD 3 0 * 2 ^ 24

/-- Go `binary.BigEndian.Uint32(b)`. -/
def BigEndian_Uint32 (b : List Nat) : Nat :=
  b.getD 3 0 + b.getD 2 0 * 2 ^ 8 + b.getD 1 0 * 2 ^ 16 + b.getD 0 0 * 2 ^ 24

/-! ## Sinks and sources (`io.Writer`, `io.Reader`) -/

/-- The error values the codecs can return: `io.EOF`, `io.ErrUnexpectedEOF`,
or an error of the sink. -/
inductive GoError where
  | EOF
  | ErrUnexpectedEOF
  | Other (code : Nat)
deriving DecidableEq, Repr

/-- An `io.Writer`. `sink i` is the behaviour of the `i`-th call of `Write`:
`none` accepts the whole slice, `some (n, e)` accepts at most `n` bytes of it
and reports `e`. `data` holds the bytes accepted so far, `calls` counts the
calls made. -/
structure Writer where
  sink : Nat → Option (Nat × GoError)
  data : List Nat
  calls : Nat

/-- One call `w.Write(p)`. -/
def Writer.Write (w : Writer) (p : List Nat) : Writer × Option GoError :=
  match w.sink w.calls with
  | none => ({ w with data := w.data ++ p, calls := w.calls + 1 }, none)
  | some (n, e) => ({ w with data := w.data ++ p.take n, calls := w.calls + 1 }, some e)

/-- Go `binary.Write(w, binary.LittleEndian, v)` for an unsigned integer of
`size` bytes: one call of `Write` with the little-endian encoding. -/
def binaryWrite (w : Writer) (size v : Nat) : Writer × Option GoError :=
  w.Write (leBytes size v)

/-- An `io.Reader` over an in-memory byte stream. `data` holds the unread
bytes, `calls` counts the read requests served. -/
structure Reader where
  data : List Nat
  calls : Nat
deriving DecidableEq, Repr

/-- Go `io.ReadFull(r, buf)` with `len(buf) = n`: exactly `n` bytes, or
`io.EOF` when no byte is left, or `io.ErrUnexpectedEOF` when the source ends
after some but not all of them. An empty `buf` is filled without reading. -/
def ReadFull (r : Reader) (n : Nat) : Except GoError (List Nat × Reader) :=
  if n = 0 then .ok ([], r)
  else if r.data.length = 0 then .error GoError.EOF
  else if r.data.length < n then .error GoError.ErrUnexpectedEOF
  else .ok (r.data.take n, { data := r.data.drop n, calls := r.calls + 1 })

/-- Go `binary.Read(r, binary.LittleEndian, &v)` for an unsigned integer of
`size` bytes: `io.ReadFull` of `size` bytes, decoded little-endian. -/
def binaryRead (r : Reader) (size : Nat) : Except GoError (Nat × Reader) :=
  match ReadFull r size with
  | .error e => .error e
  | .ok (bs, r) => .ok (leValue bs, r)

/-! ## The portable codec (`serialization.go`) -/

namespace Portable

/-- The body of the `switch fpSize` of `Save`: the fingerprint `fp` is put into
`buf` in native byte order; for a size other than 1, 2 and 4 no case applies
and `buf` is left as it is. -/
def putFingerprint (native : Endianness) (fpSize : Nat) (buf : List Nat) (fp : Nat) :
    List Nat :=
  match fpSize with
  | 1 => buf.set 0 (fp % 2 ^ 8)
  | 2 =>
    if native = LittleEndian then LittleEndian_PutUint16 buf (fp % 2 ^ 16)
    else BigEndian_PutUint16 buf (fp % 2 ^ 16)
  | 4 =>
    if native = LittleEndian then LittleEndian_PutUint32 buf (fp % 2 ^ 32)
    else BigEndian_PutUint32 buf (fp % 2 ^ 32)
  | _ => buf

/-- The loop `for _, fp := range f.Fingerprints` of `Save`, with the reused
buffer `buf`. -/
def saveFingerprints (native : Endianness) (fpSize : Nat) :
    List Nat → List Nat → Writer → Writer × Option GoError
  | [], _, w => (w, none)
  | fp :: fps, buf, w =>
    let buf := putFingerprint native fpSize buf fp
    match w.Write buf with
    | (w, some err) => (w, some err)
    | (w, none) => saveFingerprints native fpSize fps buf w

/-- Go `func (f *BinaryFuse[T]) Save(w io.Writer) error` of `serialization.go`,
for a fingerprint type of `fpSize` bytes on a host whose `nativeEndian()` is
`native`. The result is the sink after the call and the returned error. -/
def Save (native : Endianness) (fpSize : Nat) (f : BinaryFuse) (w : Writer) :
    Writer × Option GoError :=
  match binaryWrite w 8 f.Seed with
  | (w, some err) => (w, some err)
  | (w, none) =>
  match binaryWrite w 4 f.SegmentLength with
  | (w, some err) => (w, some err)
  | (w, none) =>
  match binaryWrite w 4 f.SegmentLengthMask with
  | (w, some err) => (w, some err)
  | (w, none) =>
  match binaryWrite w 4 f.SegmentCount with
  | (w, some err) => (w, some err)
  | (w, none) =>
  match binaryWrite w 4 f.SegmentCountLength with
  | (w, some err) => (w, some err)
  | (w, none) =>
  let fpLen := f.Fingerprints.length % 2 ^ 32
  match binaryWrite w 4 fpLen with
  | (w, some err) => (w, some err)
  | (w, none) =>
  match binaryWrite w 1 f.FingerprintsEndianness with
  | (w, some err) => (w, some err)
  | (w, none) =>
  saveFingerprints native fpSize f.Fingerprints (List.replicate fpSize 0) w

/-- The body of the `switch fpSize` of `LoadBinaryFuse`: the fingerprint held
by `buf` read in native byte order; for a size other than 1, 2 and 4 no case
applies and the element keeps the zero value of `make`. -/
def getFingerprint (native : Endianness) (fpSize : Nat) (buf : List Nat) : Nat :=
  match fpSize with
  | 1 => buf.getD 0 0
  | 2 => if native = LittleEndian then LittleEndian_Uint16 buf else BigEndian_Uint16 buf
  | 4 => if native = LittleEndian then LittleEndian_Uint32 buf else BigEndian_Uint32 buf
  | _ => 0

/-- The loop `for i := range f.Fingerprints` of `LoadBinaryFuse`, over the
`fpLen` elements made by `make([]T, fpLen)`. -/
def loadFingerprints (native : Endianness) (fpSize : Nat) :
    Nat → Reader → Except GoError (List Nat × Reader)
  | 0, r => .ok ([], r)
  | fpLen + 1, r =>
    match ReadFull r fpSize with
    | .error err => .error err
    | .ok (buf, r) =>
      match loadFingerprints native fpSize fpLen r with
      | .error err => .error err
      | .ok (fps, r) => .ok (getFingerprint native fpSize buf :: fps, r)

/-- Go `func LoadBinaryFuse[T Unsigned](r io.Reader) (*BinaryFuse[T], error)`
of `serialization.go`. The result is the returned error, or the returned
filter together with the source after the call. -/
def LoadBinaryFuse (native : Endianness) (fpSize : Nat) (r : Reader) :
    Except GoError (BinaryFuse × Reader) :=
  match binaryRead r 8 with
  | .error err => .error err
  | .ok (seed, r) =>
  match binaryRead r 4 with
  | .error err => .error err
  | .ok (segmentLength, r) =>
  match binaryRead r 4 with
  | .error err => .error err
  | .ok (segmentLengthMask, r) =>
  match binaryRead r 4 with
  | .error err => .error err
  | .ok (segmentCount, r) =>
  match binaryRead r 4 with
  | .error err => .error err
  | .ok (segmentCountLength, r) =>
  match binaryRead r 4 with
  | .error err => .error err
  | .ok (fpLen, r) =>
  match binaryRead r 1 with
  | .error err => .error err
  | .ok (endianness, r) =>
  match loadFingerprints native fpSize fpLen r with
  | .error err => .error err
  | .ok (fps, r) =>
    .ok ({ Seed := seed, SegmentLength := segmentLength,
           SegmentLengthMask := segmentLengthMask, SegmentCount := segmentCount,
           SegmentCountLength := segmentCountLength, Fingerprints := fps,
           FingerprintsEndianness := endianness }, r)

end Portable

/-! ## The fast-path codec (`serialization_le.go`) -/

namespace FastPath

/-- Go `func (f *BinaryFuse[T]) Save(w io.Writer) error` of
`serialization_le.go`: every field is written as the bytes it occupies in
memory, the fingerprint array as one region, skipped when it is empty. -/
def Save (native : Endianness) (fpSize : Nat) (f : BinaryFuse) (w : Writer) :
    Writer × Option GoError :=
  match w.Write (memBytes native 8 f.Seed) with
  | (w, some err) => (w, some err)
  | (w, none) =>
  match w.Write (memBytes native 4 f.SegmentLength) with
  | (w, some err) => (w, some err)
  | (w, none) =>
  match w.Write (memBytes native 4 f.SegmentLengthMask) with
  | (w, some err) => (w, some err)
  | (w, none) =>
  match w.Write (memBytes native 4 f.SegmentCount) with
  | (w, some err) => (w, some err)
  | (w, none) =>
  match w.Write (memBytes native 4 f.SegmentCountLength) with
  | (w, some err) => (w, some err)
  | (w, none) =>
  let fpLen := f.Fingerprints.length % 2 ^ 32
  match w.Write (memBytes native 4 fpLen) with
  | (w, some err) => (w, some err)
  | (w, none) =>
  match w.Write (memBytes native 1 f.FingerprintsEndianness) with
  | (w, some err) => (w, some err)
  | (w, none) =>
  if f.Fingerprints.length > 0 then
    let bytes := (f.Fingerprints.map (memBytes native fpSize)).flatten
    match w.Write bytes with
    | (w, some err) => (w, some err)
    | (w, none) => (w, none)
  else (w, none)

/-- The `n` values of `size` bytes each that a memory region holds. -/
def regionValues (native : Endianness) (size : Nat) : Nat → List Nat → List Nat
  | 0, _ => []
  | n + 1, bytes =>
    memValue native (bytes.take size) :: regionValues native size n (bytes.drop size)

/-- A read of `size` bytes into the memory of a field: `io.ReadFull` of its
byte view. -/
def readField (native : Endianness) (r : Reader) (size : Nat) :
    Except GoError (Nat × Reader) :=
  match ReadFull r size with
  | .error err => .error err
  | .ok (bs, r) => .ok (memValue native bs, r)

/-- Go `func LoadBinaryFuse[T Unsigned](r io.Reader) (*BinaryFuse[T], error)`
of `serialization_le.go`: every field is read into the bytes it occupies in
memory, the fingerprint array as one region, skipped when `fpLen` is zero. -/
def LoadBinaryFuse (native : Endianness) (fpSize : Nat) (r : Reader) :
    Except GoError (BinaryFuse × Reader) :=
  match readField native r 8 with
  | .error err => .error err
  | .ok (seed, r) =>
  match readField native r 4 with
  | .error err => .error err
  | .ok (segmentLength, r) =>
  match readField native r 4 with
  | .error err => .error err
  | .ok (segmentLengthMask, r) =>
  match readField native r 4 with
  | .error err => .error err
  | .ok (segmentCount, r) =>
  match readField native r 4 with
  | .error err => .error err
  | .ok (segmentCountLength, r) =>
  match readField native r 4 with
  | .error err => .error err
  | .ok (fpLen, r) =>
  match readField native r 1 with
  | .error err => .error err
  | .ok (endianness, r) =>
  if fpLen > 0 then
    match ReadFull r (fpLen * fpSize) with
    | .error err => .error err
    | .ok (bytes, r) =>
      .ok ({ Seed := seed, SegmentLength := segmentLength,
             SegmentLengthMask := segmentLengthMask, SegmentCount := segmentCount,
             SegmentCountLength := segmentCountLength,
             Fingerprints := regionValues native fpSize fpLen bytes,
             FingerprintsEndianness := endianness }, r)
  else
    .ok ({ Seed := seed, SegmentLength := segmentLength,
           SegmentLengthMask := segmentLengthMask, SegmentCount := segmentCount,
           SegmentCountLength := segmentCountLength, Fingerprints := [],
           FingerprintsEndianness := endianness }, r)

end FastPath

/-! ## In-memory sinks and sources (`bytes.Buffer`) -/

/-- An empty `bytes.Buffer` used as a sink: every write is accepted whole. -/
def newBuffer : Writer := { sink := fun _ => none, data := [], calls := 0 }

/-- A source holding the byte stream `b`. -/
def source (b : List Nat) : Reader := { data := b, calls := 0 }

/-- The filter a load returned, without the source. -/
def loaded (x : Except GoError (BinaryFuse × Reader)) : Except GoError BinaryFuse :=
  match x with
  | .error err => .error err
  | .ok (f, _) => .ok f

/-- The bytes `Save` leaves in an empty buffer. -/
def Portable.SaveBytes (native : Endianness) (fpSize : Nat) (f : BinaryFuse) : List Nat :=
  (Portable.Save native fpSize f newBuffer).1.data

/-- The bytes the fast-path `Save` leaves in an empty buffer. -/
def FastPath.SaveBytes (native : Endianness) (fpSize : Nat) (f : BinaryFuse) : List Nat :=
  (FastPath.Save native fpSize f newBuffer).1.data

/-! ## The wire format, as the specification words it -/

/-- The `k` bytes of `v` in little-endian order: byte `i` is digit `i` of `v`
in base 256. -/
def littleEndian (k v : Nat) : List Nat :=
  (List.range k).map (fun i => v / 256 ^ i % 256)

/-- The `k` bytes of `v` in the byte order `order`. -/
def inByteOrder (order : Endianness) (k v : Nat) : List Nat :=
  if order = LittleEndian then littleEndian k v else (littleEndian k v).reverse

/-- The wire table: seed, the four geometry fields and the count in
little-endian order, the tag byte, then the fingerprints in index order, each
as `width` bytes in the host's native order. -/
def wireFormat (native : Endianness) (width : Nat) (f : BinaryFuse) : List Nat :=
  littleEndian 8 f.Seed ++ littleEndian 4 f.SegmentLength ++
  littleEndian 4 f.SegmentLengthMask ++ littleEndian 4 f.SegmentCount ++
  littleEndian 4 f.SegmentCountLength ++ littleEndian 4 f.Fingerprints.length ++
  [f.FingerprintsEndianness] ++
  (f.Fingerprints.map (inByteOrder native width)).flatten

/-! ## Sequences of writes -/

/-- The slices are written one call after the other, up to the first call
that reports an error. -/
def writeAll : List (List Nat) → Writer → Writer × Option GoError
  | [], w => (w, none)
  | p :: ps, w =>
    match w.Write p with
    | (w, some err) => (w, some err)
    | (w, none) => writeAll ps w

/-- The slices the loop of the portable `Save` passes to `Write`. -/
def Portable.fingerprintSlices (native : Endianness) (fpSize : Nat) :
    List Nat → List Nat → List (List Nat)
  | [], _ => []
  | fp :: fps, buf =>
    Portable.putFingerprint native fpSize buf fp ::
      Portable.fingerprintSlices native fpSize fps
        (Portable.putFingerprint native fpSize buf fp)

/-- The slices the portable `Save` passes to `Write`, in order. -/
def Portable.slices (native : Endianness) (fpSize : Nat) (f : BinaryFuse) :
    List (List Nat) :=
  leBytes 8 f.Seed :: leBytes 4 f.SegmentLength :: leBytes 4 f.SegmentLengthMask ::
  leBytes 4 f.SegmentCount :: leBytes 4 f.SegmentCountLength ::
  leBytes 4 (f.Fingerprints.length % 2 ^ 32) :: leBytes 1 f.FingerprintsEndianness ::
  Portable.fingerprintSlices native fpSize f.Fingerprints (List.replicate fpSize 0)

/-- The slices the fast-path `Save` passes to `Write`, in order. -/
def FastPath.slices (native : Endianness) (fpSize : Nat) (f : BinaryFuse) :
    List (List Nat) :=
  memBytes native 8 f.Seed :: memBytes native 4 f.SegmentLength ::
  memBytes native 4 f.SegmentLengthMask :: memBytes native 4 f.SegmentCount ::
  memBytes native 4 f.SegmentCountLength ::
  memBytes native 4 (f.Fingerprints.length % 2 ^ 32) ::
  memBytes native 1 f.FingerprintsEndianness ::
  (if f.Fingerprints.length > 0 then
    [(f.Fingerprints.map (memBytes native fpSize)).flatten] else [])

/-! ## The header of a byte stream -/

/-- The 29 header bytes of the encoding of `f`, the scalar fields laid out
in the byte order `order`. -/
def headerBytes (order : Endianness) (f : BinaryFuse) : List Nat :=
  memBytes order 8 f.Seed ++ memBytes order 4 f.SegmentLength ++
  memBytes order 4 f.SegmentLengthMask ++ memBytes order 4 f.SegmentCount ++
  memBytes order 4 f.SegmentCountLength ++
  memBytes order 4 (f.Fingerprints.length % 2 ^ 32) ++
  memBytes order 1 f.FingerprintsEndianness

/-- The count field of a byte stream: the four bytes at offsets 24 to 27. -/
def countField (order : Endianness) (b : List Nat) : Nat :=
  memValue order ((b.drop 24).take 4)

/-- The filter whose scalar fields are the header values of the byte stream
`b`, at offsets 0, 8, 12, 16, 20 and 28, and whose fingerprints are `fps`. -/
def decodeHeader (order : Endianness) (b : List Nat) (fps : List Nat) : BinaryFuse :=
  { Seed := memValue order (b.take 8),
    SegmentLength := memValue order ((b.drop 8).take 4),
    SegmentLengthMask := memValue order ((b.drop 12).take 4),
    SegmentCount := memValue order ((b.drop 16).take 4),
    SegmentCountLength := memValue order ((b.drop 20).take 4),
    Fingerprints := fps,
    FingerprintsEndianness := memValue order ((b.drop 28).take 1) }

/-- The error of a read that finds `left` bytes where it needs more. -/
def shortReadError (left : Nat) : GoError :=
  if left = 0 then GoError.EOF else GoError.ErrUnexpectedEOF

/-- The error of a load from a stream of fewer than 29 bytes: the stream ends
inside a header field, or exactly at the start of one. -/
def shortHeaderError (len : Nat) : GoError :=
  if len < 8 then shortReadError len
  else if len < 12 then shortReadError (len - 8)
  else if len < 16 then shortReadError (len - 12)
  else if len < 20 then shortReadError (len - 16)
  else if len < 24 then shortReadError (len - 20)
  else if len < 28 then shortReadError (len - 24)
  else shortReadError (len - 28)

/-! ## A filter whose count does not fit the count field -/

/-- A filter of 2^32 one-byte fingerprints, all zero, with zero scalar fields
and the little-endian tag. -/
def wrapFilter : BinaryFuse := ⟨0, 0, 0, 0, 0, List.replicate (2 ^ 32) 0, 0⟩

/-! ## The filter a byte stream decodes to -/

/-- The fingerprint `i` of a byte stream: the `width` bytes at offset
`29 + i * width`, read in the byte order `native`. -/
def fingerprintAt (native : Endianness) (width : Nat) (b : List Nat) (i : Nat) : Nat :=
  memValue native ((b.drop (29 + i * width)).take width)

/-- The filter a byte stream decodes to on a host of native order `native`:
the header values at their offsets, read little-endian, the tag byte as it is,
and as many fingerprints as the count field says, each read in native order. -/
def decodeStream (native : Endianness) (width : Nat) (b : List Nat) : BinaryFuse :=
  { Seed := leValue (b.take 8),
    SegmentLength := leValue ((b.drop 8).take 4),
    SegmentLengthMask := leValue ((b.drop 12).take 4),
    SegmentCount := leValue ((b.drop 16).take 4),
    SegmentCountLength := leValue ((b.drop 20).take 4),
    Fingerprints :=
      (List.range (leValue ((b.drop 24).take 4))).map (fingerprintAt native width b),
    FingerprintsEndianness := b.getD 28 0 }

/-- The value of `width` bytes whose bytes are those of `v` in reverse
order. -/
def byteReversal (width v : Nat) : Nat := beValue (leBytes width v)

/-- The 28 bytes of the encoding of `f` that come before the tag byte. -/
def headerPrefix (order : Endianness) (f : BinaryFuse) : List Nat :=
  memBytes order 8 f.Seed ++ memBytes order 4 f.SegmentLength ++
  memBytes order 4 f.SegmentLengthMask ++ memBytes order 4 f.SegmentCount ++
  memBytes order 4 f.SegmentCountLength ++
  memBytes order 4 (f.Fingerprints.length % 2 ^ 32)

/-! ## Byte orders: lemmas -/

@[simp] theorem length_leBytes (n v : Nat) : (leBytes n v).length = n := by
  induction n generalizing v with
  | zero => rfl
  | succ n ih => simp [leBytes, ih]

@[simp] theorem length_beBytes (n v : Nat) : (beBytes n v).length = n := by
  simp [beBytes]

@[simp] theorem length_memBytes (native n v : Nat) : (memBytes native n v).length = n := by
  unfold memBytes; split <;> simp

theorem leValue_leBytes (n v : Nat) : leValue (leBytes n v) = v % 256 ^ n := by
  induction n generalizing v with
  | zero => simp [leBytes, leValue, Nat.mod_one]
  | succ n ih =>
    simp only [leBytes, leValue, ih]
    rw [pow_succ, Nat.mul_comm (256 ^ n) 256, Nat.mod_mul]

theorem memValue_memBytes (native n v : Nat) :
    memValue native (memBytes native n v) = v % 256 ^ n := by
  unfold memValue memBytes
  split
  · exact leValue_leBytes n v
  · simp [beValue, beBytes, leValue_leBytes]

theorem leBytes_eq_littleEndian (n v : Nat) : leBytes n v = littleEndian n v := by
  induction n generalizing v with
  | zero => rfl
  | succ n ih =>
    simp only [leBytes, littleEndian, List.range_succ_eq_map, List.map_cons, List.map_map,
      pow_zero, Nat.div_one, List.cons.injEq, true_and]
    rw [ih, littleEndian]
    apply List.map_congr_left
    intro i _
    simp only [Function.comp, pow_succ, Nat.div_div_eq_div_mul]
    rw [Nat.mul_comm]

theorem memBytes_eq_inByteOrder (native n v : Nat) :
    memBytes native n v = inByteOrder native n v := by
  unfold memBytes inByteOrder beBytes
  rw [leBytes_eq_littleEndian]

/-! ## The fingerprint buffer of the portable codec -/

theorem Portable.putFingerprint_eq (native w : Nat) (hw : w = 1 ∨ w = 2 ∨ w = 4)
    (buf : List Nat) (hbuf : buf.length = w) (fp : Nat) :
    Portable.putFingerprint native w buf fp = memBytes native w fp := by
  rcases hw with rfl | rfl | rfl
  · match buf, hbuf with
    | [_], _ => simp [Portable.putFingerprint, memBytes, beBytes, leBytes]
  · match buf, hbuf with
    | [_, _], _ =>
      simp only [Portable.putFingerprint, memBytes, beBytes, leBytes,
        LittleEndian_PutUint16, BigEndian_PutUint16, List.set_cons_zero, List.set_cons_succ]
      split <;> simp <;> omega
  · match buf, hbuf with
    | [_, _, _, _], _ =>
      simp only [Portable.putFingerprint, memBytes, beBytes, leBytes,
        LittleEndian_PutUint32, BigEndian_PutUint32, List.set_cons_zero, List.set_cons_succ]
      split <;> simp <;> omega

theorem Portable.fingerprintSlices_eq (native w : Nat) (hw : w = 1 ∨ w = 2 ∨ w = 4)
    (fps buf : List Nat) (hbuf : buf.length = w) :
    Portable.fingerprintSlices native w fps buf = fps.map (memBytes native w) := by
  induction fps generalizing buf with
  | nil => rfl
  | cons fp fps ih =>
    simp only [Portable.fingerprintSlices, List.map_cons]
    rw [Portable.putFingerprint_eq native w hw buf hbuf, ih _ (length_memBytes native w fp)]

theorem Portable.length_fingerprintSlices (native w : Nat) (fps buf : List Nat) :
    (Portable.fingerprintSlices native w fps buf).length = fps.length := by
  induction fps generalizing buf with
  | nil => rfl
  | cons fp fps ih => simp [Portable.fingerprintSlices, ih]

theorem Portable.getFingerprint_eq (native w : Nat) (hw : w = 1 ∨ w = 2 ∨ w = 4)
    (buf : List Nat) (hbuf : buf.length = w) :
    Portable.getFingerprint native w buf = memValue native buf := by
  rcases hw with rfl | rfl | rfl
  · match buf, hbuf with
    | [_], _ => simp [Portable.getFingerprint, memValue, beValue, leValue]
  · match buf, hbuf with
    | [_, _], _ =>
      simp only [Portable.getFingerprint, memValue, beValue, leValue,
        LittleEndian_Uint16, BigEndian_Uint16]
      split <;> simp [leValue] <;> omega
  · match buf, hbuf with
    | [_, _, _, _], _ =>
      simp only [Portable.getFingerprint, memValue, beValue, leValue,
        LittleEndian_Uint32, BigEndian_Uint32]
      split <;> simp [leValue] <;> omega

/-! ## Sequences of writes: lemmas -/

theorem Portable.saveFingerprints_eq (native w : Nat) (fps buf : List Nat) (wr : Writer) :
    Portable.saveFingerprints native w fps buf wr =
      writeAll (Portable.fingerprintSlices native w fps buf) wr := by
  induction fps generalizing buf wr with
  | nil => rfl
  | cons fp fps ih =>
    simp only [Portable.saveFingerprints, Portable.fingerprintSlices, writeAll]
    split
    · rfl
    · exact ih _ _

theorem Portable.Save_eq_writeAll (native w : Nat) (f : BinaryFuse) (wr : Writer) :
    Portable.Save native w f wr = writeAll (Portable.slices native w f) wr := by
  simp only [Portable.Save, Portable.slices, binaryWrite, writeAll,
    Portable.saveFingerprints_eq]

theorem FastPath.Save_eq_writeAll_fast (native w : Nat) (f : BinaryFuse) (wr : Writer) :
    FastPath.Save native w f wr = writeAll (FastPath.slices native w f) wr := by
  by_cases h : f.Fingerprints.length > 0 <;>
    simp only [FastPath.Save, FastPath.slices, writeAll, h, if_true, if_false]

theorem writeAll_ok (ps : List (List Nat)) (w : Writer)
    (h : ∀ i, i < ps.length → w.sink (w.calls + i) = none) :
    writeAll ps w =
      ({ w with data := w.data ++ ps.flatten, calls := w.calls + ps.length }, none) := by
  induction ps generalizing w with
  | nil => simp [writeAll]
  | cons p ps ih =>
    have h0 : w.sink w.calls = none := by simpa using h 0 (by simp)
    simp only [writeAll, Writer.Write, h0]
    rw [ih]
    · simp [Nat.add_assoc, Nat.add_comm 1]
    · intro i hi
      have := h (i + 1) (by simpa using hi)
      simpa [Nat.add_assoc, Nat.add_comm 1] using this

theorem writeAll_fail (ps : List (List Nat)) (w : Writer) (j n : Nat) (e : GoError)
    (hj : j < ps.length) (h : ∀ i, i < j → w.sink (w.calls + i) = none)
    (hf : w.sink (w.calls + j) = some (n, e)) :
    writeAll ps w =
      ({ w with data := w.data ++ (ps.take j).flatten ++ (ps.getD j []).take n,
                calls := w.calls + j + 1 }, some e) := by
  induction ps generalizing w j with
  | nil => simp at hj
  | cons p ps ih =>
    cases j with
    | zero =>
      have h0 : w.sink w.calls = some (n, e) := by simpa using hf
      simp [writeAll, Writer.Write, h0]
    | succ j =>
      have h0 : w.sink w.calls = none := by simpa using h 0 (by simp)
      simp only [writeAll, Writer.Write, h0]
      rw [ih _ j (by simpa using hj)]
      · simp [Nat.add_assoc, Nat.add_comm 1]
      · intro i hi
        have := h (i + 1) (by omega)
        simpa [Nat.add_assoc, Nat.add_comm 1] using this
      · simpa [Nat.add_assoc, Nat.add_comm 1] using hf

theorem writeAll_sink (ps : List (List Nat)) (w : Writer) :
    (writeAll ps w).1.sink = w.sink := by
  induction ps generalizing w with
  | nil => rfl
  | cons p ps ih =>
    simp only [writeAll, Writer.Write]
    cases hs : w.sink w.calls with
    | none => simp only [ih]
    | some ne => rfl

theorem writeAll_none_iff (ps : List (List Nat)) (w : Writer) :
    (writeAll ps w).2 = none ↔ ∀ i, i < ps.length → w.sink (w.calls + i) = none := by
  constructor
  · intro hnone
    by_contra hex
    push_neg at hex
    have hfind : ∃ j, j < ps.length ∧ w.sink (w.calls + j) ≠ none ∧
        ∀ i, i < j → w.sink (w.calls + i) = none := by
      classical
      have hP : ∃ j, j < ps.length ∧ w.sink (w.calls + j) ≠ none := hex
      refine ⟨Nat.find hP, (Nat.find_spec hP).1, (Nat.find_spec hP).2, ?_⟩
      intro i hi
      by_contra hne
      exact Nat.find_min hP hi ⟨lt_trans hi (Nat.find_spec hP).1, hne⟩
    obtain ⟨j, hj, hne, hbefore⟩ := hfind
    obtain ⟨⟨n, e⟩, hs⟩ := Option.ne_none_iff_exists'.mp hne
    rw [writeAll_fail ps w j n e hj hbefore hs] at hnone
    simp at hnone
  · intro h
    rw [writeAll_ok ps w h]

theorem flatten_take_append_take_prefix (ps : List (List Nat)) (j n : Nat) :
    (ps.take j).flatten ++ (ps.getD j []).take n <+: ps.flatten := by
  induction ps generalizing j with
  | nil => simp
  | cons p ps ih =>
    cases j with
    | zero =>
      simp only [List.take_zero, List.flatten_nil, List.nil_append, List.getD_cons_zero,
        List.flatten_cons]
      exact (List.take_prefix n p).trans (List.prefix_append p _)
    | succ j =>
      simp only [List.take_succ_cons, List.flatten_cons, List.getD_cons_succ, List.append_assoc]
      exact (List.prefix_append_right_inj p).mpr (ih j)

/-! ## Reads: lemmas -/

theorem readField_ok (order : Endianness) (b : List Nat) (k c n : Nat) (hn : 0 < n)
    (h : k + n ≤ b.length) :
    FastPath.readField order ⟨b.drop k, c⟩ n =
      .ok (memValue order ((b.drop k).take n), ⟨b.drop (k + n), c + 1⟩) := by
  have h1 : ¬ n = 0 := by omega
  have h2 : ¬ b.length - k = 0 := by omega
  have h3 : ¬ b.length - k < n := by omega
  simp [FastPath.readField, ReadFull, h1, h2, h3, Nat.add_comm n k]

theorem readField_short (order : Endianness) (b : List Nat) (k c n : Nat) (hn : 0 < n)
    (h : b.length < k + n) :
    FastPath.readField order ⟨b.drop k, c⟩ n = .error (shortReadError (b.length - k)) := by
  have h1 : ¬ n = 0 := by omega
  by_cases h2 : b.length - k = 0
  · simp [FastPath.readField, ReadFull, h1, h2, shortReadError]
  · have h3 : b.length - k < n := by omega
    simp [FastPath.readField, ReadFull, h1, h2, h3, shortReadError]

theorem binaryRead_eq_readField (r : Reader) (n : Nat) :
    binaryRead r n = FastPath.readField LittleEndian r n := by
  simp [binaryRead, FastPath.readField, memValue]

theorem ReadFull_ok (b : List Nat) (k c n : Nat) (hn : 0 < n) (h : k + n ≤ b.length) :
    ReadFull ⟨b.drop k, c⟩ n = .ok ((b.drop k).take n, ⟨b.drop (k + n), c + 1⟩) := by
  have h1 : ¬ n = 0 := by omega
  have h2 : ¬ b.length - k = 0 := by omega
  have h3 : ¬ b.length - k < n := by omega
  simp [ReadFull, h1, h2, h3, Nat.add_comm n k]

theorem ReadFull_short (b : List Nat) (k c n : Nat) (hn : 0 < n) (h : b.length < k + n) :
    ReadFull ⟨b.drop k, c⟩ n = .error (shortReadError (b.length - k)) := by
  have h1 : ¬ n = 0 := by omega
  by_cases h2 : b.length - k = 0
  · simp [ReadFull, h1, h2, shortReadError]
  · have h3 : b.length - k < n := by omega
    simp [ReadFull, h1, h2, h3, shortReadError]

/-- The fast-path load of a stream of at least 29 bytes, after its header. -/
theorem FastPath.LoadBinaryFuse_header_fast (order w : Nat) (b : List Nat) (c : Nat)
    (h : 29 ≤ b.length) :
    FastPath.LoadBinaryFuse order w ⟨b, c⟩ =
      if countField order b > 0 then
        match ReadFull ⟨b.drop 29, c + 7⟩ (countField order b * w) with
        | .error err => .error err
        | .ok (bytes, r) =>
          .ok (decodeHeader order b
                (FastPath.regionValues order w (countField order b) bytes), r)
      else .ok (decodeHeader order b [], ⟨b.drop 29, c + 7⟩) := by
  have e0 : (⟨b, c⟩ : Reader) = ⟨b.drop 0, c⟩ := by simp
  unfold FastPath.LoadBinaryFuse
  rw [e0, readField_ok order b 0 c 8 (by omega) (by omega)]
  simp only []
  rw [readField_ok order b _ _ 4 (by omega) (by omega)]
  simp only []
  rw [readField_ok order b _ _ 4 (by omega) (by omega)]
  simp only []
  rw [readField_ok order b _ _ 4 (by omega) (by omega)]
  simp only []
  rw [readField_ok order b _ _ 4 (by omega) (by omega)]
  simp only []
  rw [readField_ok order b _ _ 4 (by omega) (by omega)]
  simp only []
  rw [readField_ok order b _ _ 1 (by omega) (by omega)]
  simp only [List.drop_zero, countField, decodeHeader]

/-- The portable load of a stream of at least 29 bytes, after its header. -/
theorem Portable.LoadBinaryFuse_header (native w : Nat) (b : List Nat) (c : Nat)
    (h : 29 ≤ b.length) :
    Portable.LoadBinaryFuse native w ⟨b, c⟩ =
      match Portable.loadFingerprints native w (countField LittleEndian b)
          ⟨b.drop 29, c + 7⟩ with
      | .error err => .error err
      | .ok (fps, r) => .ok (decodeHeader LittleEndian b fps, r) := by
  have e0 : (⟨b, c⟩ : Reader) = ⟨b.drop 0, c⟩ := by simp
  unfold Portable.LoadBinaryFuse
  simp only [binaryRead_eq_readField]
  rw [e0, readField_ok _ b 0 c 8 (by omega) (by omega)]
  simp only []
  rw [readField_ok _ b _ _ 4 (by omega) (by omega)]
  simp only []
  rw [readField_ok _ b _ _ 4 (by omega) (by omega)]
  simp only []
  rw [readField_ok _ b _ _ 4 (by omega) (by omega)]
  simp only []
  rw [readField_ok _ b _ _ 4 (by omega) (by omega)]
  simp only []
  rw [readField_ok _ b _ _ 4 (by omega) (by omega)]
  simp only []
  rw [readField_ok _ b _ _ 1 (by omega) (by omega)]
  simp only [List.drop_zero, countField, decodeHeader]

/-- The fast-path load of a stream that ends inside its header. -/
theorem FastPath.LoadBinaryFuse_short_fast (order w : Nat) (b : List Nat) (c : Nat)
    (h : b.length < 29) :
    FastPath.LoadBinaryFuse order w ⟨b, c⟩ = .error (shortHeaderError b.length) := by
  have e0 : (⟨b, c⟩ : Reader) = ⟨b.drop 0, c⟩ := by simp
  unfold FastPath.LoadBinaryFuse shortHeaderError
  rw [e0]
  by_cases h8 : b.length < 8
  · rw [readField_short order b 0 c 8 (by omega) (by omega)]; simp [h8]
  rw [readField_ok order b 0 c 8 (by omega) (by omega)]
  simp only []
  by_cases h12 : b.length < 12
  · rw [readField_short order b _ _ 4 (by omega) (by omega)]; simp [h8, h12]
  rw [readField_ok order b _ _ 4 (by omega) (by omega)]
  simp only []
  by_cases h16 : b.length < 16
  · rw [readField_short order b _ _ 4 (by omega) (by omega)]; simp [h8, h12, h16]
  rw [readField_ok order b _ _ 4 (by omega) (by omega)]
  simp only []
  by_cases h20 : b.length < 20
  · rw [readField_short order b _ _ 4 (by omega) (by omega)]; simp [h8, h12, h16, h20]
  rw [readField_ok order b _ _ 4 (by omega) (by omega)]
  simp only []
  by_cases h24 : b.length < 24
  · rw [readField_short order b _ _ 4 (by omega) (by omega)]
    simp [h8, h12, h16, h20, h24]
  rw [readField_ok order b _ _ 4 (by omega) (by omega)]
  simp only []
  by_cases h28 : b.length < 28
  · rw [readField_short order b _ _ 4 (by omega) (by omega)]
    simp [h8, h12, h16, h20, h24, h28]
  rw [readField_ok order b _ _ 4 (by omega) (by omega)]
  simp only []
  rw [readField_short order b _ _ 1 (by omega) (by omega)]
  simp [h8, h12, h16, h20, h24, h28]

/-- The portable load of a stream that ends inside its header. -/
theorem Portable.LoadBinaryFuse_short (native w : Nat) (b : List Nat) (c : Nat)
    (h : b.length < 29) :
    Portable.LoadBinaryFuse native w ⟨b, c⟩ = .error (shortHeaderError b.length) := by
  have e0 : (⟨b, c⟩ : Reader) = ⟨b.drop 0, c⟩ := by simp
  unfold Portable.LoadBinaryFuse shortHeaderError
  simp only [binaryRead_eq_readField]
  rw [e0]
  by_cases h8 : b.length < 8
  · rw [readField_short _ b 0 c 8 (by omega) (by omega)]; simp [h8]
  rw [readField_ok _ b 0 c 8 (by omega) (by omega)]
  simp only []
  by_cases h12 : b.length < 12
  · rw [readField_short _ b _ _ 4 (by omega) (by omega)]; simp [h8, h12]
  rw [readField_ok _ b _ _ 4 (by omega) (by omega)]
  simp only []
  by_cases h16 : b.length < 16
  · rw [readField_short _ b _ _ 4 (by omega) (by omega)]; simp [h8, h12, h16]
  rw [readField_ok _ b _ _ 4 (by omega) (by omega)]
  simp only []
  by_cases h20 : b.length < 20
  · rw [readField_short _ b _ _ 4 (by omega) (by omega)]; simp [h8, h12, h16, h20]
  rw [readField_ok _ b _ _ 4 (by omega) (by omega)]
  simp only []
  by_cases h24 : b.length < 24
  · rw [readField_short _ b _ _ 4 (by omega) (by omega)]
    simp [h8, h12, h16, h20, h24]
  rw [readField_ok _ b _ _ 4 (by omega) (by omega)]
  simp only []
  by_cases h28 : b.length < 28
  · rw [readField_short _ b _ _ 4 (by omega) (by omega)]
    simp [h8, h12, h16, h20, h24, h28]
  rw [readField_ok _ b _ _ 4 (by omega) (by omega)]
  simp only []
  rw [readField_short _ b _ _ 1 (by omega) (by omega)]
  simp [h8, h12, h16, h20, h24, h28]

/-- The loop of the portable load when the source holds all the fingerprints. -/
theorem Portable.loadFingerprints_ok (native w : Nat) (hw : w = 1 ∨ w = 2 ∨ w = 4)
    (n : Nat) (b : List Nat) (k c : Nat) (h : k + n * w ≤ b.length) :
    Portable.loadFingerprints native w n ⟨b.drop k, c⟩ =
      .ok (FastPath.regionValues native w n (b.drop k), ⟨b.drop (k + n * w), c + n⟩) := by
  have hw0 : 0 < w := by omega
  induction n generalizing k c with
  | zero => simp [Portable.loadFingerprints, FastPath.regionValues]
  | succ n ih =>
    have hb : k + w + n * w ≤ b.length := by rw [Nat.succ_mul] at h; omega
    simp only [Portable.loadFingerprints, FastPath.regionValues]
    rw [ReadFull_ok b k c w hw0 (by omega)]
    simp only []
    rw [ih (k + w) (c + 1) hb]
    simp only [List.drop_drop]
    rw [Portable.getFingerprint_eq native w hw _ (by simp; omega)]
    simp only [Nat.succ_mul, Nat.add_comm w k, Except.ok.injEq, Prod.mk.injEq,
      Reader.mk.injEq, true_and]
    constructor
    · congr 1; omega
    · omega

/-- The loop of the portable load when the source ends before the last
fingerprint: `io.EOF` at a fingerprint boundary, `io.ErrUnexpectedEOF` inside
a fingerprint. -/
theorem Portable.loadFingerprints_short (native w : Nat) (hw : w = 1 ∨ w = 2 ∨ w = 4)
    (n : Nat) (b : List Nat) (k c : Nat) (hk : k ≤ b.length) (h : b.length < k + n * w) :
    Portable.loadFingerprints native w n ⟨b.drop k, c⟩ =
      .error (shortReadError ((b.length - k) % w)) := by
  have hw0 : 0 < w := by omega
  induction n generalizing k c with
  | zero => omega
  | succ n ih =>
    simp only [Portable.loadFingerprints]
    by_cases hs : b.length < k + w
    · rw [ReadFull_short b k c w hw0 hs, Nat.mod_eq_of_lt (by omega)]
    · rw [ReadFull_ok b k c w hw0 (by omega)]
      simp only []
      rw [ih (k + w) (c + 1) (by omega) (by rw [Nat.succ_mul] at h; omega)]
      simp only []
      have : b.length - k = (b.length - (k + w)) + w := by omega
      rw [this, Nat.add_mod_right]

theorem FastPath.regionValues_take (order w n : Nat) (d : List Nat) (m : Nat)
    (h : n * w ≤ m) :
    FastPath.regionValues order w n (d.take m) = FastPath.regionValues order w n d := by
  induction n generalizing d m with
  | zero => rfl
  | succ n ih =>
    rw [Nat.succ_mul] at h
    simp only [FastPath.regionValues]
    rw [List.take_take, Nat.min_eq_left (by omega), List.drop_take, ih _ _ (by omega)]

theorem FastPath.length_regionValues (order w n : Nat) (d : List Nat) :
    (FastPath.regionValues order w n d).length = n := by
  induction n generalizing d with
  | zero => rfl
  | succ n ih => simp [FastPath.regionValues, ih]

/-- The values of a region that holds the memory bytes of `fps` are `fps`. -/
theorem FastPath.regionValues_memBytes (order w : Nat) (fps t : List Nat)
    (h : ∀ fp ∈ fps, fp < 2 ^ (8 * w)) :
    FastPath.regionValues order w fps.length ((fps.map (memBytes order w)).flatten ++ t) =
      fps := by
  induction fps with
  | nil => rfl
  | cons fp fps ih =>
    have hfp : fp < 256 ^ w := by
      have := h fp (by simp)
      rwa [pow_mul] at this
    simp only [List.length_cons, FastPath.regionValues, List.map_cons, List.flatten_cons,
      List.append_assoc]
    rw [List.take_left' (length_memBytes order w fp), List.drop_left' (length_memBytes order w fp),
      memValue_memBytes, Nat.mod_eq_of_lt hfp, ih (fun x hx => h x (by simp [hx]))]

theorem length_flatten_memBytes (order w : Nat) (fps : List Nat) :
    ((fps.map (memBytes order w)).flatten).length = fps.length * w := by
  induction fps with
  | nil => simp
  | cons fp fps ih => simp [ih, Nat.succ_mul, Nat.add_comm]

/-! ## The bytes written by `Save` -/

theorem Portable.Save_newBuffer (native w : Nat) (f : BinaryFuse) :
    Portable.Save native w f newBuffer =
      ({ sink := fun _ => none, data := (Portable.slices native w f).flatten,
         calls := (Portable.slices native w f).length }, none) := by
  rw [Portable.Save_eq_writeAll, writeAll_ok _ _ (fun _ _ => rfl)]
  simp [newBuffer]

theorem FastPath.Save_newBuffer_fast (native w : Nat) (f : BinaryFuse) :
    FastPath.Save native w f newBuffer =
      ({ sink := fun _ => none, data := (FastPath.slices native w f).flatten,
         calls := (FastPath.slices native w f).length }, none) := by
  rw [FastPath.Save_eq_writeAll_fast, writeAll_ok _ _ (fun _ _ => rfl)]
  simp [newBuffer]

theorem memBytes_LittleEndian (n v : Nat) : memBytes LittleEndian n v = leBytes n v := by
  simp [memBytes]

theorem Portable.SaveBytes_eq (native w : Nat) (hw : w = 1 ∨ w = 2 ∨ w = 4)
    (f : BinaryFuse) :
    Portable.SaveBytes native w f =
      headerBytes LittleEndian f ++ (f.Fingerprints.map (memBytes native w)).flatten := by
  simp only [Portable.SaveBytes, Portable.Save_newBuffer, Portable.slices,
    Portable.fingerprintSlices_eq native w hw _ _ (List.length_replicate _ _),
    headerBytes, memBytes_LittleEndian, List.flatten_cons, List.append_assoc]

theorem FastPath.SaveBytes_eq_fast (native w : Nat) (f : BinaryFuse) :
    FastPath.SaveBytes native w f =
      headerBytes native f ++ (f.Fingerprints.map (memBytes native w)).flatten := by
  simp only [FastPath.SaveBytes, FastPath.Save_newBuffer_fast, FastPath.slices, headerBytes,
    List.flatten_cons, List.append_assoc]
  cases hf : f.Fingerprints with
  | nil => simp
  | cons fp fps => simp

@[simp] theorem drop_memBytes_of_le (order n v k : Nat) (h : n ≤ k) :
    (memBytes order n v).drop k = [] := by
  apply List.drop_eq_nil_of_le
  simpa using h

@[simp] theorem length_headerBytes (order : Nat) (f : BinaryFuse) :
    (headerBytes order f).length = 29 := by
  simp [headerBytes]

theorem countField_headerBytes (order : Nat) (f : BinaryFuse) (t : List Nat) :
    countField order (headerBytes order f ++ t) = f.Fingerprints.length % 2 ^ 32 := by
  have e : (List.drop 24 (headerBytes order f ++ t)).take 4 =
      memBytes order 4 (f.Fingerprints.length % 2 ^ 32) := by
    simp [headerBytes, List.drop_append_eq_append_drop, List.take_append_eq_append_take]
  rw [countField, e, memValue_memBytes]
  omega

theorem decodeHeader_headerBytes (order w : Nat) (f : BinaryFuse) (hf : f.InRange w)
    (t fps : List Nat) :
    decodeHeader order (headerBytes order f ++ t) fps = { f with Fingerprints := fps } := by
  obtain ⟨h1, h2, h3, h4, h5, h6', _⟩ := hf
  have h6 : @LT.lt Nat _ f.FingerprintsEndianness 256 := h6'
  have e1 : (headerBytes order f ++ t).take 8 = memBytes order 8 f.Seed := by
    simp [headerBytes, List.take_append_eq_append_take]
  have e2 : (List.drop 8 (headerBytes order f ++ t)).take 4 =
      memBytes order 4 f.SegmentLength := by
    simp [headerBytes, List.drop_append_eq_append_drop, List.take_append_eq_append_take]
  have e3 : (List.drop 12 (headerBytes order f ++ t)).take 4 =
      memBytes order 4 f.SegmentLengthMask := by
    simp [headerBytes, List.drop_append_eq_append_drop, List.take_append_eq_append_take]
  have e4 : (List.drop 16 (headerBytes order f ++ t)).take 4 =
      memBytes order 4 f.SegmentCount := by
    simp [headerBytes, List.drop_append_eq_append_drop, List.take_append_eq_append_take]
  have e5 : (List.drop 20 (headerBytes order f ++ t)).take 4 =
      memBytes order 4 f.SegmentCountLength := by
    simp [headerBytes, List.drop_append_eq_append_drop, List.take_append_eq_append_take]
  have e6 : (List.drop 28 (headerBytes order f ++ t)).take 1 =
      memBytes order 1 f.FingerprintsEndianness := by
    simp [headerBytes, List.drop_append_eq_append_drop, List.take_append_eq_append_take]
  simp only [decodeHeader, e1, e2, e3, e4, e5, e6, memValue_memBytes]
  rw [Nat.mod_eq_of_lt (by omega), Nat.mod_eq_of_lt (by omega), Nat.mod_eq_of_lt (by omega),
    Nat.mod_eq_of_lt (by omega), Nat.mod_eq_of_lt (by omega), Nat.mod_eq_of_lt (by omega)]

/-! ## Loading an encoding -/

/-- The portable load of the encoding of `f` followed by `t`. -/
theorem Portable.load_encoding (native w : Nat) (hw : w = 1 ∨ w = 2 ∨ w = 4)
    (f : BinaryFuse) (hf : f.InRange w) (hlen : f.Fingerprints.length < 2 ^ 32)
    (t : List Nat) (c : Nat) :
    Portable.LoadBinaryFuse native w
        ⟨headerBytes LittleEndian f ++
          ((f.Fingerprints.map (memBytes native w)).flatten ++ t), c⟩ =
      .ok (f, ⟨t, c + 7 + f.Fingerprints.length⟩) := by
  have hcount := countField_headerBytes LittleEndian f
    ((f.Fingerprints.map (memBytes native w)).flatten ++ t)
  rw [Nat.mod_eq_of_lt hlen] at hcount
  rw [Portable.LoadBinaryFuse_header _ _ _ _ (by simp), hcount,
    Portable.loadFingerprints_ok native w hw _ _ 29 _
      (by simp only [List.length_append, length_headerBytes, length_flatten_memBytes]; omega)]
  simp only []
  rw [List.drop_left' (length_headerBytes _ f), FastPath.regionValues_memBytes _ _ _ _ hf.2.2.2.2.2.2,
    decodeHeader_headerBytes LittleEndian w f hf, ← List.append_assoc,
    List.drop_left' (by simp only [List.length_append, length_headerBytes,
      length_flatten_memBytes])]

/-- The fast-path load of the encoding of `f` followed by `t`. -/
theorem FastPath.load_encoding_fast (order w : Nat) (hw : w = 1 ∨ w = 2 ∨ w = 4)
    (f : BinaryFuse) (hf : f.InRange w) (hlen : f.Fingerprints.length < 2 ^ 32)
    (t : List Nat) (c : Nat) :
    FastPath.LoadBinaryFuse order w
        ⟨headerBytes order f ++ ((f.Fingerprints.map (memBytes order w)).flatten ++ t), c⟩ =
      .ok (f, ⟨t, c + 7 + (if f.Fingerprints.length > 0 then 1 else 0)⟩) := by
  have hw0 : 0 < w := by omega
  have hcount := countField_headerBytes order f
    ((f.Fingerprints.map (memBytes order w)).flatten ++ t)
  rw [Nat.mod_eq_of_lt hlen] at hcount
  rw [FastPath.LoadBinaryFuse_header_fast _ _ _ _ (by simp), hcount]
  by_cases hn : f.Fingerprints.length > 0
  · rw [if_pos hn, if_pos hn,
      ReadFull_ok _ 29 _ _ (Nat.mul_pos hn hw0)
        (by simp only [List.length_append, length_headerBytes, length_flatten_memBytes]; omega)]
    simp only []
    rw [List.drop_left' (length_headerBytes _ f),
      List.take_left' (length_flatten_memBytes order w _),
      decodeHeader_headerBytes order w f hf, ← List.append_assoc,
      List.drop_left' (by simp only [List.length_append, length_headerBytes,
        length_flatten_memBytes])]
    have := FastPath.regionValues_memBytes order w f.Fingerprints [] hf.2.2.2.2.2.2
    rw [List.append_nil] at this
    rw [this]
  · have hnil : f.Fingerprints = [] := List.length_eq_zero.mp (by omega)
    rw [if_neg hn, if_neg hn, decodeHeader_headerBytes order w f hf,
      List.drop_left' (length_headerBytes _ f)]
    simp [hnil]
    rw [← hnil]

/-! ## Offsets in the wire format -/

theorem littleEndian_length (k v : Nat) : (littleEndian k v).length = k := by
  simp [littleEndian]

theorem inByteOrder_length (order k v : Nat) : (inByteOrder order k v).length = k := by
  unfold inByteOrder; split <;> simp [littleEndian_length]

/-- The element `i` of a region of slices of `w` bytes each. -/
theorem flatten_slice (g : Nat → List Nat) (w : Nat) (hg : ∀ v, (g v).length = w)
    (fps : List Nat) (i : Nat) (hi : i < fps.length) (t : List Nat) :
    (((fps.map g).flatten ++ t).drop (i * w)).take w = g (fps.getD i 0) := by
  induction fps generalizing i with
  | nil => simp at hi
  | cons fp fps ih =>
    cases i with
    | zero => simp [List.take_left' (hg fp)]
    | succ i =>
      have e : (i + 1) * w = (g fp).length + i * w := by rw [hg, Nat.succ_mul, Nat.add_comm]
      simp only [List.map_cons, List.flatten_cons, List.append_assoc, List.getD_cons_succ, e]
      rw [← List.drop_drop, List.drop_left, ih i (by simpa using hi)]

/-! ## The claims -/

/-- C1 (round trip): for every filter whose fields fit their machine types,
of fingerprint width 1, 2 or 4 and with fewer than 2^32 fingerprints, `Save`
into an empty buffer reports no error and `LoadBinaryFuse` of the bytes
written succeeds and returns the filter saved, field for field. This holds for
the portable codec under every native byte order and for the fast-path
codec. -/
theorem C1_round_trip (native w : Nat) (f : BinaryFuse) (hw : w = 1 ∨ w = 2 ∨ w = 4)
    (hf : f.InRange w) (hlen : f.Fingerprints.length < 2 ^ 32) :
    ((Portable.Save native w f newBuffer).2 = none ∧
      loaded (Portable.LoadBinaryFuse native w (source (Portable.SaveBytes native w f))) =
        .ok f) ∧
    ((FastPath.Save native w f newBuffer).2 = none ∧
      loaded (FastPath.LoadBinaryFuse native w (source (FastPath.SaveBytes native w f))) =
        .ok f) := by
  refine ⟨⟨by rw [Portable.Save_newBuffer], ?_⟩, ⟨by rw [FastPath.Save_newBuffer_fast], ?_⟩⟩
  · have h := Portable.load_encoding native w hw f hf hlen [] 0
    rw [List.append_nil] at h
    rw [Portable.SaveBytes_eq native w hw, source, h, loaded]
  · have h := FastPath.load_encoding_fast native w hw f hf hlen [] 0
    rw [List.append_nil] at h
    rw [FastPath.SaveBytes_eq_fast, source, h, loaded]

/-- The round trip of C1 at a filter of three 16-bit fingerprints tagged
big-endian, on a little-endian host. -/
theorem C1_round_trip_witness :
    ((Portable.Save 0 2 ⟨7, 4, 3, 2, 1, [4660, 0, 65535], 1⟩ newBuffer).2 = none ∧
      loaded (Portable.LoadBinaryFuse 0 2
        (source (Portable.SaveBytes 0 2 ⟨7, 4, 3, 2, 1, [4660, 0, 65535], 1⟩))) =
        .ok ⟨7, 4, 3, 2, 1, [4660, 0, 65535], 1⟩) ∧
    ((FastPath.Save 0 2 ⟨7, 4, 3, 2, 1, [4660, 0, 65535], 1⟩ newBuffer).2 = none ∧
      loaded (FastPath.LoadBinaryFuse 0 2
        (source (FastPath.SaveBytes 0 2 ⟨7, 4, 3, 2, 1, [4660, 0, 65535], 1⟩))) =
        .ok ⟨7, 4, 3, 2, 1, [4660, 0, 65535], 1⟩) :=
  C1_round_trip 0 2 ⟨7, 4, 3, 2, 1, [4660, 0, 65535], 1⟩ (by decide)
    (by simp [BinaryFuse.InRange]) (by decide)

/-- C2 (cross-codec byte equivalence): on a host of little-endian native
order, for every filter and every fingerprint width 1, 2 or 4, the portable
`Save` and the fast-path `Save` both report no error and leave the same bytes
in an empty buffer. -/
theorem C2_save_bytes_agree (w : Nat) (f : BinaryFuse) (hw : w = 1 ∨ w = 2 ∨ w = 4) :
    (Portable.Save LittleEndian w f newBuffer).2 = none ∧
    (FastPath.Save LittleEndian w f newBuffer).2 = none ∧
    Portable.SaveBytes LittleEndian w f = FastPath.SaveBytes LittleEndian w f := by
  refine ⟨by rw [Portable.Save_newBuffer], by rw [FastPath.Save_newBuffer_fast], ?_⟩
  rw [Portable.SaveBytes_eq LittleEndian w hw, FastPath.SaveBytes_eq_fast]

/-- The byte equivalence of C2 at a filter of two 32-bit fingerprints. -/
theorem C2_save_bytes_agree_witness :
    (Portable.Save LittleEndian 4 ⟨9, 8, 7, 6, 5, [305419896, 1], 0⟩ newBuffer).2 = none ∧
    (FastPath.Save LittleEndian 4 ⟨9, 8, 7, 6, 5, [305419896, 1], 0⟩ newBuffer).2 = none ∧
    Portable.SaveBytes LittleEndian 4 ⟨9, 8, 7, 6, 5, [305419896, 1], 0⟩ =
      FastPath.SaveBytes LittleEndian 4 ⟨9, 8, 7, 6, 5, [305419896, 1], 0⟩ :=
  C2_save_bytes_agree 4 ⟨9, 8, 7, 6, 5, [305419896, 1], 0⟩ (by decide)

/-- C3 (wire layout): for every filter whose fields fit their machine types,
with `n < 2^32` fingerprints of width `w` in {1, 2, 4}, the portable `Save`
writes the wire table: the seed as 8 little-endian bytes at offset 0; the four
geometry fields as 4 little-endian bytes each at offsets 8, 12, 16 and 20; `n`
as 4 little-endian bytes at offset 24; the tag byte at offset 28; from offset
29 the fingerprints in index order, fingerprint `i` as `w` bytes in native
order at offset `29 + i * w`. The length is `29 + n * w`. -/
theorem C3_wire_layout (native w : Nat) (f : BinaryFuse) (hw : w = 1 ∨ w = 2 ∨ w = 4)
    (hf : f.InRange w) (hlen : f.Fingerprints.length < 2 ^ 32) :
    Portable.SaveBytes native w f = wireFormat native w f ∧
    (Portable.SaveBytes native w f).length = 29 + f.Fingerprints.length * w ∧
    (Portable.SaveBytes native w f).take 8 = littleEndian 8 f.Seed ∧
    ((Portable.SaveBytes native w f).drop 8).take 4 = littleEndian 4 f.SegmentLength ∧
    ((Portable.SaveBytes native w f).drop 12).take 4 = littleEndian 4 f.SegmentLengthMask ∧
    ((Portable.SaveBytes native w f).drop 16).take 4 = littleEndian 4 f.SegmentCount ∧
    ((Portable.SaveBytes native w f).drop 20).take 4 = littleEndian 4 f.SegmentCountLength ∧
    ((Portable.SaveBytes native w f).drop 24).take 4 = littleEndian 4 f.Fingerprints.length ∧
    ((Portable.SaveBytes native w f).drop 28).take 1 = [f.FingerprintsEndianness] ∧
    ∀ i, i < f.Fingerprints.length →
      ((Portable.SaveBytes native w f).drop (29 + i * w)).take w =
        inByteOrder native w (f.Fingerprints.getD i 0) := by
  have h6 : @LT.lt Nat _ f.FingerprintsEndianness 256 := hf.2.2.2.2.2.1
  have htag : memBytes LittleEndian 1 f.FingerprintsEndianness = [f.FingerprintsEndianness] := by
    simp [memBytes, leBytes, Nat.mod_eq_of_lt h6]
  have hfmt : Portable.SaveBytes native w f = wireFormat native w f := by
    rw [Portable.SaveBytes_eq native w hw, headerBytes, htag, Nat.mod_eq_of_lt hlen, wireFormat]
    simp only [memBytes_LittleEndian, leBytes_eq_littleEndian]
    have hfun : memBytes native w = inByteOrder native w :=
      funext (memBytes_eq_inByteOrder native w)
    rw [hfun]
  have hlenk : ∀ k v, (littleEndian k v).length = k := littleEndian_length
  refine ⟨hfmt, ?_, ?_, ?_, ?_, ?_, ?_, ?_, ?_, ?_⟩
  · rw [Portable.SaveBytes_eq native w hw]
    simp only [List.length_append, length_headerBytes, length_flatten_memBytes]
  · rw [hfmt, wireFormat]
    simp only [List.append_assoc]
    rw [List.take_left' (hlenk 8 _)]
  · rw [hfmt, wireFormat]
    simp only [List.append_assoc]
    rw [List.drop_left' (hlenk 8 _), List.take_left' (hlenk 4 _)]
  · rw [hfmt, wireFormat]
    simp only [List.append_assoc]
    rw [← List.append_assoc (littleEndian 8 _),
      List.drop_left' (by simp [hlenk]), List.take_left' (hlenk 4 _)]
  · rw [hfmt, wireFormat]
    simp only [List.append_assoc]
    rw [← List.append_assoc (littleEndian 8 _), ← List.append_assoc (_ ++ _),
      List.drop_left' (by simp [hlenk]), List.take_left' (hlenk 4 _)]
  · rw [hfmt, wireFormat]
    simp only [List.append_assoc]
    rw [← List.append_assoc (littleEndian 8 _), ← List.append_assoc (_ ++ _),
      ← List.append_assoc (_ ++ _),
      List.drop_left' (by simp [hlenk]), List.take_left' (hlenk 4 _)]
  · rw [hfmt, wireFormat]
    simp only [List.append_assoc]
    rw [← List.append_assoc (littleEndian 8 _), ← List.append_assoc (_ ++ _),
      ← List.append_assoc (_ ++ _), ← List.append_assoc (_ ++ _),
      List.drop_left' (by simp [hlenk]), List.take_left' (hlenk 4 _)]
  · rw [hfmt, wireFormat]
    simp only [List.append_assoc]
    rw [← List.append_assoc (littleEndian 8 _), ← List.append_assoc (_ ++ _),
      ← List.append_assoc (_ ++ _), ← List.append_assoc (_ ++ _),
      ← List.append_assoc (_ ++ _),
      List.drop_left' (by simp [hlenk])]
    simp
  · intro i hi
    rw [hfmt, wireFormat, ← List.drop_drop, List.drop_left' (by simp [hlenk])]
    have := flatten_slice (inByteOrder native w) w (inByteOrder_length native w)
      f.Fingerprints i hi []
    rwa [List.append_nil] at this

/-- The wire layout of C3 at a filter of two 16-bit fingerprints on a
big-endian host. -/
theorem C3_wire_layout_witness :
    Portable.SaveBytes 1 2 ⟨7, 4, 3, 2, 1, [4660, 65535], 0⟩ =
      wireFormat 1 2 ⟨7, 4, 3, 2, 1, [4660, 65535], 0⟩ ∧
    (Portable.SaveBytes 1 2 ⟨7, 4, 3, 2, 1, [4660, 65535], 0⟩).length = 29 + 2 * 2 :=
  ⟨(C3_wire_layout 1 2 ⟨7, 4, 3, 2, 1, [4660, 65535], 0⟩ (by decide)
      (by simp [BinaryFuse.InRange]) (by decide)).1,
   (C3_wire_layout 1 2 ⟨7, 4, 3, 2, 1, [4660, 65535], 0⟩ (by decide)
      (by simp [BinaryFuse.InRange]) (by decide)).2.1⟩

/-! ## Streams whose count field is zero, truncated streams -/

theorem Portable.load_count_zero (native w : Nat) (f : BinaryFuse) (hf : f.InRange w)
    (h0 : f.Fingerprints.length % 2 ^ 32 = 0) (t : List Nat) (c : Nat) :
    Portable.LoadBinaryFuse native w ⟨headerBytes LittleEndian f ++ t, c⟩ =
      .ok ({ f with Fingerprints := [] }, ⟨t, c + 7⟩) := by
  rw [Portable.LoadBinaryFuse_header _ _ _ _ (by simp), countField_headerBytes, h0]
  simp only [Portable.loadFingerprints]
  rw [decodeHeader_headerBytes LittleEndian w f hf, List.drop_left' (length_headerBytes _ f)]

theorem FastPath.load_count_zero_fast (order w : Nat) (f : BinaryFuse) (hf : f.InRange w)
    (h0 : f.Fingerprints.length % 2 ^ 32 = 0) (t : List Nat) (c : Nat) :
    FastPath.LoadBinaryFuse order w ⟨headerBytes order f ++ t, c⟩ =
      .ok ({ f with Fingerprints := [] }, ⟨t, c + 7⟩) := by
  rw [FastPath.LoadBinaryFuse_header_fast _ _ _ _ (by simp), countField_headerBytes, h0,
    if_neg (by omega), decodeHeader_headerBytes order w f hf,
    List.drop_left' (length_headerBytes _ f)]

theorem countField_take (order k : Nat) (b : List Nat) (h : 28 ≤ k) :
    countField order (b.take k) = countField order b := by
  unfold countField
  rw [List.drop_take, List.take_take, Nat.min_eq_left (by omega)]

theorem wrapFilter_length : wrapFilter.Fingerprints.length = 2 ^ 32 := by
  simp only [wrapFilter, List.length_replicate]

theorem wrapFilter_inRange : wrapFilter.InRange 1 := by
  refine ⟨?_, ?_, ?_, ?_, ?_, ?_, ?_⟩
  · show (0 : Nat) < 2 ^ 64; norm_num
  · show (0 : Nat) < 2 ^ 32; norm_num
  · show (0 : Nat) < 2 ^ 32; norm_num
  · show (0 : Nat) < 2 ^ 32; norm_num
  · show (0 : Nat) < 2 ^ 32; norm_num
  · show (0 : Nat) < 2 ^ 8; norm_num
  · intro fp hfp
    have : fp = 0 := List.eq_of_mem_replicate hfp
    rw [this]; norm_num

theorem wrapFilter_ne : ({ wrapFilter with Fingerprints := [] } : BinaryFuse) ≠ wrapFilter := by
  intro h
  have h2 := congrArg (fun g => g.Fingerprints.length) h
  simp only [List.length_nil] at h2
  rw [wrapFilter_length] at h2
  norm_num at h2

/-- C4 as stated fails at a filter of 2^32 one-byte fingerprints: the
fast-path `Save` writes the count field 0, and the portable `LoadBinaryFuse`
of the bytes written succeeds with a filter of no fingerprints, different from
the filter saved. -/
theorem C4_counterexample :
    wrapFilter.InRange 1 ∧
    loaded (Portable.LoadBinaryFuse LittleEndian 1
      (source (FastPath.SaveBytes LittleEndian 1 wrapFilter))) =
        .ok { wrapFilter with Fingerprints := [] } ∧
    loaded (Portable.LoadBinaryFuse LittleEndian 1
      (source (FastPath.SaveBytes LittleEndian 1 wrapFilter))) ≠ .ok wrapFilter := by
  have hload : loaded (Portable.LoadBinaryFuse LittleEndian 1
      (source (FastPath.SaveBytes LittleEndian 1 wrapFilter))) =
        .ok { wrapFilter with Fingerprints := [] } := by
    rw [FastPath.SaveBytes_eq_fast, source,
      Portable.load_count_zero LittleEndian 1 wrapFilter wrapFilter_inRange
        (by rw [wrapFilter_length]; norm_num), loaded]
  refine ⟨wrapFilter_inRange, hload, ?_⟩
  rw [hload]
  intro h
  exact wrapFilter_ne (Except.ok.inj h)

/-- C4 (cross-codec loading), amended: on a host of little-endian native
order, for every filter whose fields fit their machine types, of width 1, 2
or 4 and with fewer than 2^32 fingerprints, the portable `LoadBinaryFuse` of
the bytes written by the fast-path `Save`, and the fast-path `LoadBinaryFuse`
of the bytes written by the portable `Save`, both succeed and return the
filter saved. -/
theorem C4_cross_load (w : Nat) (f : BinaryFuse) (hw : w = 1 ∨ w = 2 ∨ w = 4)
    (hf : f.InRange w) (hlen : f.Fingerprints.length < 2 ^ 32) :
    loaded (Portable.LoadBinaryFuse LittleEndian w
      (source (FastPath.SaveBytes LittleEndian w f))) = .ok f ∧
    loaded (FastPath.LoadBinaryFuse LittleEndian w
      (source (Portable.SaveBytes LittleEndian w f))) = .ok f := by
  constructor
  · have h := Portable.load_encoding LittleEndian w hw f hf hlen [] 0
    rw [List.append_nil] at h
    rw [FastPath.SaveBytes_eq_fast, source, h, loaded]
  · have h := FastPath.load_encoding_fast LittleEndian w hw f hf hlen [] 0
    rw [List.append_nil] at h
    rw [Portable.SaveBytes_eq LittleEndian w hw, source, h, loaded]

/-- The cross-codec loading of C4 at a filter of three one-byte fingerprints. -/
theorem C4_cross_load_witness :
    loaded (Portable.LoadBinaryFuse LittleEndian 1
      (source (FastPath.SaveBytes LittleEndian 1 ⟨5, 4, 3, 2, 1, [255, 0, 17], 1⟩))) =
        .ok ⟨5, 4, 3, 2, 1, [255, 0, 17], 1⟩ ∧
    loaded (FastPath.LoadBinaryFuse LittleEndian 1
      (source (Portable.SaveBytes LittleEndian 1 ⟨5, 4, 3, 2, 1, [255, 0, 17], 1⟩))) =
        .ok ⟨5, 4, 3, 2, 1, [255, 0, 17], 1⟩ :=
  C4_cross_load 1 ⟨5, 4, 3, 2, 1, [255, 0, 17], 1⟩ (by decide)
    (by simp [BinaryFuse.InRange]) (by decide)

/-- The portable load of a proper prefix of an encoding fails. -/
theorem Portable.load_truncated (native w : Nat) (hw : w = 1 ∨ w = 2 ∨ w = 4)
    (f : BinaryFuse) (hlen : f.Fingerprints.length < 2 ^ 32) (body : List Nat)
    (hbody : body.length = f.Fingerprints.length * w) (k : Nat)
    (hk : k < 29 + f.Fingerprints.length * w) :
    ∃ err, Portable.LoadBinaryFuse native w
      (source ((headerBytes LittleEndian f ++ body).take k)) = .error err := by
  have hlk : ((headerBytes LittleEndian f ++ body).take k).length = k := by
    simp only [List.length_take, List.length_append, length_headerBytes, hbody]; omega
  by_cases h29 : k < 29
  · exact ⟨_, Portable.LoadBinaryFuse_short native w _ 0 (by omega)⟩
  · rw [source, Portable.LoadBinaryFuse_header _ _ _ _ (by omega),
      countField_take _ _ _ (by omega), countField_headerBytes, Nat.mod_eq_of_lt hlen,
      Portable.loadFingerprints_short native w hw _ _ 29 _ (by omega) (by omega)]
    exact ⟨_, rfl⟩

/-- The fast-path load of a proper prefix of an encoding fails. -/
theorem FastPath.load_truncated_fast (order w : Nat) (hw : w = 1 ∨ w = 2 ∨ w = 4)
    (f : BinaryFuse) (hlen : f.Fingerprints.length < 2 ^ 32) (body : List Nat)
    (hbody : body.length = f.Fingerprints.length * w) (k : Nat)
    (hk : k < 29 + f.Fingerprints.length * w) :
    ∃ err, FastPath.LoadBinaryFuse order w
      (source ((headerBytes order f ++ body).take k)) = .error err := by
  have hlk : ((headerBytes order f ++ body).take k).length = k := by
    simp only [List.length_take, List.length_append, length_headerBytes, hbody]; omega
  by_cases h29 : k < 29
  · exact ⟨_, FastPath.LoadBinaryFuse_short_fast order w _ 0 (by omega)⟩
  · have hn : f.Fingerprints.length > 0 := by
      rcases Nat.eq_zero_or_pos f.Fingerprints.length with h0 | h0
      · rw [h0] at hk; omega
      · exact h0
    have hw0 : 0 < w := by omega
    rw [source, FastPath.LoadBinaryFuse_header_fast _ _ _ _ (by omega),
      countField_take _ _ _ (by omega), countField_headerBytes, Nat.mod_eq_of_lt hlen,
      if_pos hn, ReadFull_short _ 29 _ _ (Nat.mul_pos hn hw0) (by omega)]
    exact ⟨_, rfl⟩

/-- C5 as stated fails at a filter of 2^32 one-byte fingerprints: `Save`
writes the count field 0 followed by 2^32 fingerprint bytes, and
`LoadBinaryFuse` of the first 29 of these bytes succeeds. -/
theorem C5_counterexample :
    wrapFilter.InRange 1 ∧
    29 < (Portable.SaveBytes LittleEndian 1 wrapFilter).length ∧
    loaded (Portable.LoadBinaryFuse LittleEndian 1
      (source ((Portable.SaveBytes LittleEndian 1 wrapFilter).take 29))) =
        .ok { wrapFilter with Fingerprints := [] } := by
  refine ⟨wrapFilter_inRange, ?_, ?_⟩
  · rw [Portable.SaveBytes_eq LittleEndian 1 (by decide)]
    simp only [List.length_append, length_headerBytes, length_flatten_memBytes,
      wrapFilter_length]
    norm_num
  · have h := Portable.load_count_zero LittleEndian 1 wrapFilter wrapFilter_inRange
      (by rw [wrapFilter_length]; norm_num) [] 0
    rw [List.append_nil] at h
    rw [Portable.SaveBytes_eq LittleEndian 1 (by decide),
      List.take_left' (length_headerBytes _ _), source, h, loaded]

/-- C5 (short-read detection), amended: for every filter of width 1, 2 or 4
with fewer than 2^32 fingerprints and every `k` smaller than the length of the
bytes written by `Save`, `LoadBinaryFuse` of the first `k` of these bytes
returns an error and no filter. This holds for the portable codec under every
native byte order and for the fast-path codec. -/
theorem C5_truncated_fails (native w : Nat) (f : BinaryFuse) (hw : w = 1 ∨ w = 2 ∨ w = 4)
    (hlen : f.Fingerprints.length < 2 ^ 32) :
    (∀ k, k < (Portable.SaveBytes native w f).length →
      ∃ err, Portable.LoadBinaryFuse native w
        (source ((Portable.SaveBytes native w f).take k)) = .error err) ∧
    (∀ k, k < (FastPath.SaveBytes native w f).length →
      ∃ err, FastPath.LoadBinaryFuse native w
        (source ((FastPath.SaveBytes native w f).take k)) = .error err) := by
  constructor
  · intro k hk
    rw [Portable.SaveBytes_eq native w hw] at hk ⊢
    simp only [List.length_append, length_headerBytes, length_flatten_memBytes] at hk
    exact Portable.load_truncated native w hw f hlen _ (length_flatten_memBytes _ _ _) k hk
  · intro k hk
    rw [FastPath.SaveBytes_eq_fast] at hk ⊢
    simp only [List.length_append, length_headerBytes, length_flatten_memBytes] at hk
    exact FastPath.load_truncated_fast native w hw f hlen _ (length_flatten_memBytes _ _ _) k hk

/-- The short-read detection of C5 at a filter of two 16-bit fingerprints
whose encoding is cut inside the second fingerprint. -/
theorem C5_truncated_fails_witness :
    (∃ err, Portable.LoadBinaryFuse 0 2
      (source ((Portable.SaveBytes 0 2 ⟨7, 4, 3, 2, 1, [4660, 65535], 0⟩).take 32)) =
        .error err) ∧
    (∃ err, FastPath.LoadBinaryFuse 0 2
      (source ((FastPath.SaveBytes 0 2 ⟨7, 4, 3, 2, 1, [4660, 65535], 0⟩).take 32)) =
        .error err) :=
  ⟨(C5_truncated_fails 0 2 ⟨7, 4, 3, 2, 1, [4660, 65535], 0⟩ (by decide) (by decide)).1 32
      (by decide),
   (C5_truncated_fails 0 2 ⟨7, 4, 3, 2, 1, [4660, 65535], 0⟩ (by decide) (by decide)).2 32
      (by decide)⟩

/-! ## Loading an arbitrary byte stream -/

theorem FastPath.regionValues_eq_map (order w n : Nat) (d : List Nat) :
    FastPath.regionValues order w n d =
      (List.range n).map (fun i => memValue order ((d.drop (i * w)).take w)) := by
  induction n generalizing d with
  | zero => rfl
  | succ n ih =>
    rw [FastPath.regionValues, ih, List.range_succ_eq_map, List.map_cons, List.map_map]
    simp only [Nat.zero_mul, List.drop_zero, List.cons.injEq, true_and]
    apply List.map_congr_left
    intro i _
    simp only [Function.comp, List.drop_drop, Nat.succ_mul]
    rw [Nat.add_comm w (i * w)]

theorem decodeHeader_eq_decodeStream (native w : Nat) (b : List Nat) (h : 29 ≤ b.length) :
    decodeHeader LittleEndian b
        (FastPath.regionValues native w (countField LittleEndian b) (b.drop 29)) =
      decodeStream native w b := by
  have htag : memValue LittleEndian ((b.drop 28).take 1) = b.getD 28 0 := by
    have hlt : 28 < b.length := by omega
    rw [List.getD_eq_getElem?_getD, List.getElem?_eq_getElem hlt, Option.getD_some,
      List.drop_eq_getElem_cons hlt]
    simp [memValue, leValue]
  simp only [decodeHeader, decodeStream, countField, htag, FastPath.regionValues_eq_map,
    List.drop_drop, memValue, if_true, fingerprintAt]
  congr 2

/-- The portable load of a stream that holds its header and all the
fingerprints its count field declares. -/
theorem Portable.load_complete (native w : Nat) (hw : w = 1 ∨ w = 2 ∨ w = 4)
    (b : List Nat) (c : Nat)
    (h : 29 ≤ b.length ∧ 29 + leValue ((b.drop 24).take 4) * w ≤ b.length) :
    Portable.LoadBinaryFuse native w ⟨b, c⟩ =
      .ok (decodeStream native w b,
        ⟨b.drop (29 + leValue ((b.drop 24).take 4) * w),
          c + 7 + leValue ((b.drop 24).take 4)⟩) := by
  have hc : countField LittleEndian b = leValue ((b.drop 24).take 4) := by
    simp [countField, memValue]
  rw [Portable.LoadBinaryFuse_header _ _ _ _ h.1,
    Portable.loadFingerprints_ok native w hw _ _ 29 _ (by rw [hc]; exact h.2)]
  simp only []
  rw [decodeHeader_eq_decodeStream native w b h.1, hc]

/-- The portable load of a stream that ends before its header or its declared
fingerprints do. -/
theorem Portable.load_incomplete (native w : Nat) (hw : w = 1 ∨ w = 2 ∨ w = 4)
    (b : List Nat) (c : Nat)
    (h : ¬ (29 ≤ b.length ∧ 29 + leValue ((b.drop 24).take 4) * w ≤ b.length)) :
    ∃ err, Portable.LoadBinaryFuse native w ⟨b, c⟩ = .error err := by
  have hc : countField LittleEndian b = leValue ((b.drop 24).take 4) := by
    simp [countField, memValue]
  by_cases h29 : 29 ≤ b.length
  · rw [Portable.LoadBinaryFuse_header _ _ _ _ h29,
      Portable.loadFingerprints_short native w hw _ _ 29 _ h29
        (by rw [hc]; exact Nat.lt_of_not_le (fun hle => h ⟨h29, hle⟩))]
    exact ⟨_, rfl⟩
  · exact ⟨_, Portable.LoadBinaryFuse_short native w b c (by omega)⟩

/-- The fast-path load, on a little-endian host, of a stream that holds its
header and all the fingerprints its count field declares. -/
theorem FastPath.load_complete_fast (w : Nat) (hw : w = 1 ∨ w = 2 ∨ w = 4)
    (b : List Nat) (c : Nat)
    (h : 29 ≤ b.length ∧ 29 + leValue ((b.drop 24).take 4) * w ≤ b.length) :
    FastPath.LoadBinaryFuse LittleEndian w ⟨b, c⟩ =
      .ok (decodeStream LittleEndian w b,
        ⟨b.drop (29 + leValue ((b.drop 24).take 4) * w),
          c + 7 + (if leValue ((b.drop 24).take 4) > 0 then 1 else 0)⟩) := by
  have hw0 : 0 < w := by omega
  have hc : countField LittleEndian b = leValue ((b.drop 24).take 4) := by
    simp [countField, memValue]
  rw [FastPath.LoadBinaryFuse_header_fast _ _ _ _ h.1]
  by_cases hn : countField LittleEndian b > 0
  · rw [if_pos hn, ReadFull_ok _ 29 _ _ (Nat.mul_pos hn hw0) (by rw [hc]; exact h.2)]
    simp only []
    rw [FastPath.regionValues_take _ _ _ _ _ (Nat.le_refl _),
      decodeHeader_eq_decodeStream LittleEndian w b h.1, ← hc, if_pos hn]
  · rw [if_neg hn, ← hc, if_neg hn]
    have h0 : countField LittleEndian b = 0 := by omega
    have := decodeHeader_eq_decodeStream LittleEndian w b h.1
    rw [h0] at this
    rw [h0, ← this]
    simp [FastPath.regionValues]

/-- The fast-path load, on a little-endian host, of a stream that ends before
its header or its declared fingerprints do. -/
theorem FastPath.load_incomplete_fast (w : Nat) (hw : w = 1 ∨ w = 2 ∨ w = 4)
    (b : List Nat) (c : Nat)
    (h : ¬ (29 ≤ b.length ∧ 29 + leValue ((b.drop 24).take 4) * w ≤ b.length)) :
    ∃ err, FastPath.LoadBinaryFuse LittleEndian w ⟨b, c⟩ = .error err := by
  have hw0 : 0 < w := by omega
  have hc : countField LittleEndian b = leValue ((b.drop 24).take 4) := by
    simp [countField, memValue]
  by_cases h29 : 29 ≤ b.length
  · have hlt : b.length < 29 + countField LittleEndian b * w := by
      rw [hc]; exact Nat.lt_of_not_le (fun hle => h ⟨h29, hle⟩)
    have hn : countField LittleEndian b > 0 := by
      rcases Nat.eq_zero_or_pos (countField LittleEndian b) with h0 | h0
      · rw [h0] at hlt; omega
      · exact h0
    rw [FastPath.LoadBinaryFuse_header_fast _ _ _ _ h29, if_pos hn,
      ReadFull_short _ 29 _ _ (Nat.mul_pos hn hw0) hlt]
    exact ⟨_, rfl⟩
  · exact ⟨_, FastPath.LoadBinaryFuse_short_fast LittleEndian w b c (by omega)⟩

/-- C6 (permissive decoding, failure only on short input): for every byte
stream `b` and width `w` in {1, 2, 4}, `LoadBinaryFuse` succeeds if and only
if `b` has at least 29 bytes and at least `29 + c * w` bytes, `c` being the
little-endian value of the four bytes at offsets 24 to 27; and on success the
filter returned is the one `b` decodes to: the header values as they are, the
byte at offset 28 as the tag, and the `c` fingerprints read in native order.
No value of a field is rejected. This holds for the portable codec under every
native byte order and for the fast-path codec on a little-endian host. -/
theorem C6_permissive_decoding (native w : Nat) (b : List Nat)
    (hw : w = 1 ∨ w = 2 ∨ w = 4) :
    ((∃ F, loaded (Portable.LoadBinaryFuse native w (source b)) = .ok F) ↔
      (29 ≤ b.length ∧ 29 + leValue ((b.drop 24).take 4) * w ≤ b.length)) ∧
    (∀ F, loaded (Portable.LoadBinaryFuse native w (source b)) = .ok F →
      F = decodeStream native w b) ∧
    ((∃ F, loaded (FastPath.LoadBinaryFuse LittleEndian w (source b)) = .ok F) ↔
      (29 ≤ b.length ∧ 29 + leValue ((b.drop 24).take 4) * w ≤ b.length)) ∧
    (∀ F, loaded (FastPath.LoadBinaryFuse LittleEndian w (source b)) = .ok F →
      F = decodeStream LittleEndian w b) := by
  by_cases h : 29 ≤ b.length ∧ 29 + leValue ((b.drop 24).take 4) * w ≤ b.length
  · have hp := Portable.load_complete native w hw b 0 h
    have hq := FastPath.load_complete_fast w hw b 0 h
    simp only [source, hp, hq, loaded, Except.ok.injEq, exists_eq', h, and_self, true_iff,
      true_and]
    exact ⟨fun F hF => hF.symm, fun F hF => hF.symm⟩
  · obtain ⟨e1, hp⟩ := Portable.load_incomplete native w hw b 0 h
    obtain ⟨e2, hq⟩ := FastPath.load_incomplete_fast w hw b 0 h
    simp [source, hp, hq, loaded, h]

/-- The decoding of C6 at a stream of 31 bytes whose geometry is arbitrary,
whose count field is 1 and whose tag byte is 7: both loads succeed. -/
theorem C6_permissive_decoding_witness :
    (∃ F, loaded (Portable.LoadBinaryFuse 0 2 (source
      [1, 2, 3, 4, 5, 6, 7, 8, 255, 255, 255, 255, 0, 0, 0, 0, 9, 9, 9, 9, 0, 0, 0, 128,
       1, 0, 0, 0, 7, 52, 18])) = .ok F) ∧
    (∃ F, loaded (FastPath.LoadBinaryFuse LittleEndian 2 (source
      [1, 2, 3, 4, 5, 6, 7, 8, 255, 255, 255, 255, 0, 0, 0, 0, 9, 9, 9, 9, 0, 0, 0, 128,
       1, 0, 0, 0, 7, 52, 18])) = .ok F) :=
  ⟨(C6_permissive_decoding 0 2 _ (by decide)).1.2 (by decide),
   (C6_permissive_decoding 0 2 _ (by decide)).2.2.1.2 (by decide)⟩

/-- C7 (empty fingerprint array): for every filter with no fingerprints, of
any width, any scalar values and any tag, `Save` reports no error and writes
exactly the 29 header bytes with count field 0; the fast-path `Save` makes
seven calls of `Write`, none for the fingerprint region; `LoadBinaryFuse` of
these bytes succeeds with no fingerprints and leaves no byte unread, the
fast-path load after seven reads, none for the fingerprint region. The filter
of seed 0, geometry 4, 3, 2, 1 and little-endian tag at width 2 encodes to
`00*8, 04 00 00 00, 03 00 00 00, 02 00 00 00, 01 00 00 00, 00 00 00 00, 00`. -/
theorem C7_empty_fingerprints (native w : Nat) (f : BinaryFuse)
    (hf : f.Fingerprints = []) :
    ((Portable.Save native w f newBuffer).2 = none ∧
      Portable.SaveBytes native w f =
        littleEndian 8 f.Seed ++ littleEndian 4 f.SegmentLength ++
        littleEndian 4 f.SegmentLengthMask ++ littleEndian 4 f.SegmentCount ++
        littleEndian 4 f.SegmentCountLength ++ littleEndian 4 0 ++
        littleEndian 1 f.FingerprintsEndianness ∧
      (Portable.SaveBytes native w f).length = 29 ∧
      ∃ g r, Portable.LoadBinaryFuse native w (source (Portable.SaveBytes native w f)) =
          .ok (g, r) ∧ g.Fingerprints = [] ∧ r.data = []) ∧
    ((FastPath.Save LittleEndian w f newBuffer).2 = none ∧
      (FastPath.Save LittleEndian w f newBuffer).1.calls = 7 ∧
      FastPath.SaveBytes LittleEndian w f = Portable.SaveBytes native w f ∧
      ∃ g r, FastPath.LoadBinaryFuse LittleEndian w
          (source (FastPath.SaveBytes LittleEndian w f)) = .ok (g, r) ∧
        g.Fingerprints = [] ∧ r.data = [] ∧ r.calls = 7) ∧
    Portable.SaveBytes native 2 ⟨0, 4, 3, 2, 1, [], 0⟩ =
      [0, 0, 0, 0, 0, 0, 0, 0, 4, 0, 0, 0, 3, 0, 0, 0, 2, 0, 0, 0, 1, 0, 0, 0,
       0, 0, 0, 0, 0] ∧
    FastPath.SaveBytes LittleEndian 2 ⟨0, 4, 3, 2, 1, [], 0⟩ =
      [0, 0, 0, 0, 0, 0, 0, 0, 4, 0, 0, 0, 3, 0, 0, 0, 2, 0, 0, 0, 1, 0, 0, 0,
       0, 0, 0, 0, 0] := by
  have hP : Portable.SaveBytes native w f = headerBytes LittleEndian f := by
    simp [Portable.SaveBytes, Portable.Save_newBuffer, Portable.slices, hf,
      Portable.fingerprintSlices, headerBytes, memBytes_LittleEndian]
  have hQ : FastPath.SaveBytes LittleEndian w f = headerBytes LittleEndian f := by
    rw [FastPath.SaveBytes_eq_fast, hf]; simp
  have hc : countField LittleEndian (headerBytes LittleEndian f) = 0 := by
    have := countField_headerBytes LittleEndian f []
    rw [List.append_nil, hf] at this
    simpa using this
  have hd : (headerBytes LittleEndian f).drop 29 = [] :=
    List.drop_eq_nil_of_le (by simp)
  refine ⟨⟨by rw [Portable.Save_newBuffer], ?_, ?_, ?_⟩, ⟨by rw [FastPath.Save_newBuffer_fast],
    ?_, ?_, ?_⟩, ?_, ?_⟩
  · rw [hP, headerBytes, hf]
    simp only [memBytes_LittleEndian, leBytes_eq_littleEndian, List.length_nil, Nat.zero_mod]
  · rw [hP, length_headerBytes]
  · rw [hP, source, Portable.LoadBinaryFuse_header _ _ _ _ (by simp), hc]
    exact ⟨_, _, rfl, rfl, hd⟩
  · rw [FastPath.Save_newBuffer_fast]
    simp [FastPath.slices, hf]
  · rw [hP, hQ]
  · rw [hQ, source, FastPath.LoadBinaryFuse_header_fast _ _ _ _ (by simp), hc, if_neg (by omega)]
    exact ⟨_, _, rfl, rfl, hd, rfl⟩
  · simp [Portable.SaveBytes, Portable.Save_newBuffer, Portable.slices,
      Portable.fingerprintSlices, leBytes]
  · simp [FastPath.SaveBytes, FastPath.Save_newBuffer_fast, FastPath.slices, memBytes, leBytes]

/-- The empty-array case of C7 at a filter of width 4 with arbitrary scalar
values and the tag byte 1: 29 bytes, seven writes. -/
theorem C7_empty_fingerprints_witness :
    (Portable.SaveBytes 0 4 ⟨99, 8, 7, 6, 5, [], 1⟩).length = 29 ∧
    (FastPath.Save LittleEndian 4 ⟨99, 8, 7, 6, 5, [], 1⟩ newBuffer).1.calls = 7 :=
  ⟨(C7_empty_fingerprints 0 4 ⟨99, 8, 7, 6, 5, [], 1⟩ rfl).1.2.2.1,
   (C7_empty_fingerprints 0 4 ⟨99, 8, 7, 6, 5, [], 1⟩ rfl).2.1.2.1⟩

/-! ## Failing sinks -/

theorem Portable.length_slices (native w : Nat) (f : BinaryFuse) :
    (Portable.slices native w f).length = 7 + f.Fingerprints.length := by
  simp only [Portable.slices, List.length_cons, Portable.length_fingerprintSlices]
  omega

theorem FastPath.length_slices_fast (native w : Nat) (f : BinaryFuse) :
    (FastPath.slices native w f).length =
      7 + (if f.Fingerprints.length > 0 then 1 else 0) := by
  by_cases h : f.Fingerprints.length > 0 <;> simp [FastPath.slices, h]

/-- The outcome of a sequence of writes into a fresh sink whose call `j` is the
first to fail. -/
theorem writeAll_first_failure (ps : List (List Nat)) (sink : Nat → Option (Nat × GoError))
    (j n : Nat) (e : GoError) (hj : j < ps.length) (h : ∀ i, i < j → sink i = none)
    (hf : sink j = some (n, e)) :
    (writeAll ps ⟨sink, [], 0⟩).2 = some e ∧
    (writeAll ps ⟨sink, [], 0⟩).1.calls = j + 1 ∧
    (writeAll ps ⟨sink, [], 0⟩).1.data <+: ps.flatten := by
  rw [writeAll_fail ps ⟨sink, [], 0⟩ j n e hj (by simpa using h) (by simpa using hf)]
  refine ⟨rfl, by simp, ?_⟩
  simpa using flatten_take_append_take_prefix ps j n

/-- The outcome of a sequence of writes into a fresh sink: no error exactly
when none of the calls fails, and then every slice is accepted. -/
theorem writeAll_no_failure (ps : List (List Nat)) (sink : Nat → Option (Nat × GoError)) :
    ((writeAll ps ⟨sink, [], 0⟩).2 = none ↔ ∀ i, i < ps.length → sink i = none) ∧
    ((∀ i, i < ps.length → sink i = none) →
      (writeAll ps ⟨sink, [], 0⟩).1.data = ps.flatten ∧
      (writeAll ps ⟨sink, [], 0⟩).1.calls = ps.length) := by
  constructor
  · simpa using writeAll_none_iff ps ⟨sink, [], 0⟩
  · intro h
    rw [writeAll_ok ps ⟨sink, [], 0⟩ (by simpa using h)]
    simp

/-- C8 (`Save` aborts on the first write failure): for every filter and every
sink whose call `j` of `Write` is the first to report an error `e`, `j` being
one of the calls `Save` makes (seven for the header, then one for each
fingerprint in the portable codec, one for a non-empty fingerprint region in
the fast-path codec), `Save` returns `e`, has made `j + 1` calls and none
after the failing one, and the bytes the sink accepted are a prefix of the
full encoding. `Save` returns no error if and only if none of its calls
fails, and then the sink holds the full encoding. This holds for both
codecs. -/
theorem C8_save_aborts_on_first_failure (native w : Nat) (f : BinaryFuse)
    (sink : Nat → Option (Nat × GoError)) :
    (∀ j n e, j < 7 + f.Fingerprints.length → (∀ i, i < j → sink i = none) →
      sink j = some (n, e) →
      (Portable.Save native w f ⟨sink, [], 0⟩).2 = some e ∧
      (Portable.Save native w f ⟨sink, [], 0⟩).1.calls = j + 1 ∧
      (Portable.Save native w f ⟨sink, [], 0⟩).1.data <+: Portable.SaveBytes native w f) ∧
    ((Portable.Save native w f ⟨sink, [], 0⟩).2 = none ↔
      ∀ i, i < 7 + f.Fingerprints.length → sink i = none) ∧
    ((∀ i, i < 7 + f.Fingerprints.length → sink i = none) →
      (Portable.Save native w f ⟨sink, [], 0⟩).1.data = Portable.SaveBytes native w f) ∧
    (∀ j n e, j < 7 + (if f.Fingerprints.length > 0 then 1 else 0) →
      (∀ i, i < j → sink i = none) → sink j = some (n, e) →
      (FastPath.Save native w f ⟨sink, [], 0⟩).2 = some e ∧
      (FastPath.Save native w f ⟨sink, [], 0⟩).1.calls = j + 1 ∧
      (FastPath.Save native w f ⟨sink, [], 0⟩).1.data <+: FastPath.SaveBytes native w f) ∧
    ((FastPath.Save native w f ⟨sink, [], 0⟩).2 = none ↔
      ∀ i, i < 7 + (if f.Fingerprints.length > 0 then 1 else 0) → sink i = none) ∧
    ((∀ i, i < 7 + (if f.Fingerprints.length > 0 then 1 else 0) → sink i = none) →
      (FastPath.Save native w f ⟨sink, [], 0⟩).1.data = FastPath.SaveBytes native w f) := by
  have hP : Portable.SaveBytes native w f = (Portable.slices native w f).flatten := by
    rw [Portable.SaveBytes, Portable.Save_newBuffer]
  have hQ : FastPath.SaveBytes native w f = (FastPath.slices native w f).flatten := by
    rw [FastPath.SaveBytes, FastPath.Save_newBuffer_fast]
  rw [hP, hQ, Portable.Save_eq_writeAll, FastPath.Save_eq_writeAll_fast,
    ← Portable.length_slices native w f, ← FastPath.length_slices_fast native w f]
  refine ⟨?_, (writeAll_no_failure _ sink).1, fun h => ((writeAll_no_failure _ sink).2 h).1,
    ?_, (writeAll_no_failure _ sink).1, fun h => ((writeAll_no_failure _ sink).2 h).1⟩
  · intro j n e hj h hf
    exact writeAll_first_failure _ sink j n e hj h hf
  · intro j n e hj h hf
    exact writeAll_first_failure _ sink j n e hj h hf

/-- The abort of C8 at a sink that fails on its third call after accepting
one byte of it: `Save` returns that error after three calls. -/
theorem C8_save_aborts_on_first_failure_witness :
    (Portable.Save 0 2 ⟨7, 4, 3, 2, 1, [4660], 0⟩
      ⟨fun i => if i = 2 then some (1, GoError.Other 5) else none, [], 0⟩).2 =
        some (GoError.Other 5) ∧
    (Portable.Save 0 2 ⟨7, 4, 3, 2, 1, [4660], 0⟩
      ⟨fun i => if i = 2 then some (1, GoError.Other 5) else none, [], 0⟩).1.calls = 2 + 1 ∧
    (Portable.Save 0 2 ⟨7, 4, 3, 2, 1, [4660], 0⟩
      ⟨fun i => if i = 2 then some (1, GoError.Other 5) else none, [], 0⟩).1.data <+:
        Portable.SaveBytes 0 2 ⟨7, 4, 3, 2, 1, [4660], 0⟩ :=
  (C8_save_aborts_on_first_failure 0 2 ⟨7, 4, 3, 2, 1, [4660], 0⟩
    (fun i => if i = 2 then some (1, GoError.Other 5) else none)).1 2 1 (GoError.Other 5)
    (by decide) (by intro i hi; simp; omega) (by simp)

/-! ## The tag byte and the fingerprints -/

/-- A successful portable load returns the filter the stream decodes to. -/
theorem Portable.loaded_ok (native w : Nat) (hw : w = 1 ∨ w = 2 ∨ w = 4) (b : List Nat)
    (F : BinaryFuse) (h : loaded (Portable.LoadBinaryFuse native w (source b)) = .ok F) :
    29 ≤ b.length ∧ F = decodeStream native w b := by
  by_cases hc : 29 ≤ b.length ∧ 29 + leValue ((b.drop 24).take 4) * w ≤ b.length
  · rw [source, Portable.load_complete native w hw b 0 hc, loaded] at h
    exact ⟨hc.1, (Except.ok.inj h).symm⟩
  · obtain ⟨e, he⟩ := Portable.load_incomplete native w hw b 0 hc
    rw [source, he, loaded] at h
    cases h

/-- A successful fast-path load on a little-endian host returns the filter
the stream decodes to. -/
theorem FastPath.loaded_ok_fast (w : Nat) (hw : w = 1 ∨ w = 2 ∨ w = 4) (b : List Nat)
    (F : BinaryFuse)
    (h : loaded (FastPath.LoadBinaryFuse LittleEndian w (source b)) = .ok F) :
    29 ≤ b.length ∧ F = decodeStream LittleEndian w b := by
  by_cases hc : 29 ≤ b.length ∧ 29 + leValue ((b.drop 24).take 4) * w ≤ b.length
  · rw [source, FastPath.load_complete_fast w hw b 0 hc, loaded] at h
    exact ⟨hc.1, (Except.ok.inj h).symm⟩
  · obtain ⟨e, he⟩ := FastPath.load_incomplete_fast w hw b 0 hc
    rw [source, he, loaded] at h
    cases h

theorem take_drop_set (b : List Nat) (t off size : Nat) (h : off + size ≤ 28) :
    ((b.set 28 t).drop off).take size = (b.drop off).take size := by
  apply List.ext_getElem?
  intro i
  simp only [List.getElem?_take, List.getElem?_drop]
  split
  · rw [List.getElem?_set_ne (by omega)]
  · rfl

/-- A change of the byte at offset 28 changes the tag of the decoded filter
and nothing else. -/
theorem decodeStream_set (native w : Nat) (b : List Nat) (t : Nat) (h : 29 ≤ b.length) :
    decodeStream native w (b.set 28 t) =
      { decodeStream native w b with FingerprintsEndianness := t } := by
  have h8 : (b.set 28 t).take 8 = b.take 8 := by
    simpa using take_drop_set b t 0 8 (by omega)
  have hfp : fingerprintAt native w (b.set 28 t) = fingerprintAt native w b := by
    funext i
    simp only [fingerprintAt]
    rw [List.drop_set_of_lt t b (by omega)]
  have htag : (b.set 28 t).getD 28 0 = t := by
    rw [List.getD_eq_getElem?_getD, List.getElem?_set_self (by omega), Option.getD_some]
  simp only [decodeStream, h8, take_drop_set b t 8 4 (by omega),
    take_drop_set b t 12 4 (by omega), take_drop_set b t 16 4 (by omega),
    take_drop_set b t 20 4 (by omega), take_drop_set b t 24 4 (by omega), hfp, htag]

/-- C9 (load does not convert by tag): for every byte stream `b` and every
byte `t`, if `LoadBinaryFuse` succeeds on `b` and on `b` with the byte at
offset 28 replaced by `t`, the two filters have the same seed, the same
geometry fields and the same fingerprints, each fingerprint being the stored
bytes read in the host's native order; their tags are the respective bytes at
offset 28. This holds for the portable codec under every native byte order
and for the fast-path codec. -/
theorem C9_load_ignores_tag (native w : Nat) (b : List Nat) (t : Nat)
    (hw : w = 1 ∨ w = 2 ∨ w = 4) :
    (∀ F1 F2, loaded (Portable.LoadBinaryFuse native w (source b)) = .ok F1 →
      loaded (Portable.LoadBinaryFuse native w (source (b.set 28 t))) = .ok F2 →
      F1.Seed = F2.Seed ∧ F1.SegmentLength = F2.SegmentLength ∧
      F1.SegmentLengthMask = F2.SegmentLengthMask ∧ F1.SegmentCount = F2.SegmentCount ∧
      F1.SegmentCountLength = F2.SegmentCountLength ∧
      F1.Fingerprints = F2.Fingerprints ∧
      F1.Fingerprints =
        (List.range (leValue ((b.drop 24).take 4))).map (fingerprintAt native w b) ∧
      F1.FingerprintsEndianness = b.getD 28 0 ∧ F2.FingerprintsEndianness = t) ∧
    (∀ F1 F2, loaded (FastPath.LoadBinaryFuse LittleEndian w (source b)) = .ok F1 →
      loaded (FastPath.LoadBinaryFuse LittleEndian w (source (b.set 28 t))) = .ok F2 →
      F1.Seed = F2.Seed ∧ F1.SegmentLength = F2.SegmentLength ∧
      F1.SegmentLengthMask = F2.SegmentLengthMask ∧ F1.SegmentCount = F2.SegmentCount ∧
      F1.SegmentCountLength = F2.SegmentCountLength ∧
      F1.Fingerprints = F2.Fingerprints ∧
      F1.Fingerprints =
        (List.range (leValue ((b.drop 24).take 4))).map (fingerprintAt LittleEndian w b) ∧
      F1.FingerprintsEndianness = b.getD 28 0 ∧ F2.FingerprintsEndianness = t) := by
  constructor
  · intro F1 F2 h1 h2
    obtain ⟨hlen, e1⟩ := Portable.loaded_ok native w hw b F1 h1
    obtain ⟨_, e2⟩ := Portable.loaded_ok native w hw _ F2 h2
    rw [decodeStream_set native w b t hlen] at e2
    subst e1 e2
    exact ⟨rfl, rfl, rfl, rfl, rfl, rfl, rfl, rfl, rfl⟩
  · intro F1 F2 h1 h2
    obtain ⟨hlen, e1⟩ := FastPath.loaded_ok_fast w hw b F1 h1
    obtain ⟨_, e2⟩ := FastPath.loaded_ok_fast w hw _ F2 h2
    rw [decodeStream_set LittleEndian w b t hlen] at e2
    subst e1 e2
    exact ⟨rfl, rfl, rfl, rfl, rfl, rfl, rfl, rfl, rfl⟩

/-- The tag independence of C9 at a stream of one 16-bit fingerprint, tagged
little-endian and re-tagged big-endian, on a little-endian host: both loads
succeed with the fingerprint 4660. -/
theorem C9_load_ignores_tag_witness :
    loaded (Portable.LoadBinaryFuse 0 2 (source
      [1, 0, 0, 0, 0, 0, 0, 0, 4, 0, 0, 0, 3, 0, 0, 0, 2, 0, 0, 0, 1, 0, 0, 0,
       1, 0, 0, 0, 0, 52, 18])) = .ok ⟨1, 4, 3, 2, 1, [4660], 0⟩ ∧
    loaded (Portable.LoadBinaryFuse 0 2 (source
      ([1, 0, 0, 0, 0, 0, 0, 0, 4, 0, 0, 0, 3, 0, 0, 0, 2, 0, 0, 0, 1, 0, 0, 0,
        1, 0, 0, 0, 0, 52, 18].set 28 1))) = .ok ⟨1, 4, 3, 2, 1, [4660], 1⟩ ∧
    (⟨1, 4, 3, 2, 1, [4660], 0⟩ : BinaryFuse).Fingerprints =
      (⟨1, 4, 3, 2, 1, [4660], 1⟩ : BinaryFuse).Fingerprints ∧
    (⟨1, 4, 3, 2, 1, [4660], 1⟩ : BinaryFuse).FingerprintsEndianness = 1 :=
  ⟨rfl, rfl,
   ((C9_load_ignores_tag 0 2
      [1, 0, 0, 0, 0, 0, 0, 0, 4, 0, 0, 0, 3, 0, 0, 0, 2, 0, 0, 0, 1, 0, 0, 0,
       1, 0, 0, 0, 0, 52, 18] 1 (by decide)).1
      ⟨1, 4, 3, 2, 1, [4660], 0⟩ ⟨1, 4, 3, 2, 1, [4660], 1⟩ rfl rfl).2.2.2.2.2.1,
   ((C9_load_ignores_tag 0 2
      [1, 0, 0, 0, 0, 0, 0, 0, 4, 0, 0, 0, 3, 0, 0, 0, 2, 0, 0, 0, 1, 0, 0, 0,
       1, 0, 0, 0, 0, 52, 18] 1 (by decide)).1
      ⟨1, 4, 3, 2, 1, [4660], 0⟩ ⟨1, 4, 3, 2, 1, [4660], 1⟩ rfl rfl).2.2.2.2.2.2.2.2⟩

/-- C10 (`LoadBinaryFuse` converts to native endianness) does not hold of the
code: at the encoding of a filter of one 16-bit fingerprint 4660 tagged
big-endian, on a little-endian host, both loads succeed and return the
fingerprint 4660, the stored bytes `52, 18` read in native order, where the
doc comments of both loaders promise its byte-reversal 13330. -/
theorem C10_load_returns_unconverted :
    Portable.SaveBytes LittleEndian 2 ⟨1, 4, 3, 2, 1, [4660], BigEndian⟩ =
      [1, 0, 0, 0, 0, 0, 0, 0, 4, 0, 0, 0, 3, 0, 0, 0, 2, 0, 0, 0, 1, 0, 0, 0,
       1, 0, 0, 0, 1, 52, 18] ∧
    loaded (Portable.LoadBinaryFuse LittleEndian 2 (source
      [1, 0, 0, 0, 0, 0, 0, 0, 4, 0, 0, 0, 3, 0, 0, 0, 2, 0, 0, 0, 1, 0, 0, 0,
       1, 0, 0, 0, 1, 52, 18])) = .ok ⟨1, 4, 3, 2, 1, [4660], BigEndian⟩ ∧
    loaded (FastPath.LoadBinaryFuse LittleEndian 2 (source
      [1, 0, 0, 0, 0, 0, 0, 0, 4, 0, 0, 0, 3, 0, 0, 0, 2, 0, 0, 0, 1, 0, 0, 0,
       1, 0, 0, 0, 1, 52, 18])) = .ok ⟨1, 4, 3, 2, 1, [4660], BigEndian⟩ ∧
    memValue LittleEndian [52, 18] = 4660 ∧
    byteReversal 2 (memValue LittleEndian [52, 18]) = 13330 ∧
    (4660 : Nat) ≠ byteReversal 2 (memValue LittleEndian [52, 18]) :=
  ⟨rfl, rfl, rfl, rfl, rfl, by decide⟩

/-! ## The tag byte in the bytes written -/

@[simp] theorem length_headerPrefix (order : Nat) (f : BinaryFuse) :
    (headerPrefix order f).length = 28 := by
  simp [headerPrefix]

theorem memBytes_one (order v : Nat) : memBytes order 1 v = [v % 256] := by
  unfold memBytes; split <;> simp [beBytes, leBytes]

theorem headerBytes_eq_prefix (order : Nat) (f : BinaryFuse) :
    headerBytes order f = headerPrefix order f ++ [f.FingerprintsEndianness % 256] := by
  rw [headerBytes, headerPrefix, memBytes_one]

/-- The bytes the portable `Save` writes: 28 bytes, the tag byte, and the
slices of the fingerprint loop. -/
theorem Portable.SaveBytes_split (native w : Nat) (f : BinaryFuse) :
    Portable.SaveBytes native w f =
      headerPrefix LittleEndian f ++ (f.FingerprintsEndianness % 256 ::
        (Portable.fingerprintSlices native w f.Fingerprints (List.replicate w 0)).flatten) := by
  simp only [Portable.SaveBytes, Portable.Save_newBuffer, Portable.slices, headerPrefix,
    memBytes_LittleEndian, List.flatten_cons, List.append_assoc, leBytes, List.cons_append,
    List.nil_append]

/-- The bytes the fast-path `Save` writes: 28 bytes, the tag byte, and the
fingerprint region. -/
theorem FastPath.SaveBytes_split_fast (native w : Nat) (f : BinaryFuse) :
    FastPath.SaveBytes native w f =
      headerPrefix native f ++ (f.FingerprintsEndianness % 256 ::
        (f.Fingerprints.map (memBytes native w)).flatten) := by
  rw [FastPath.SaveBytes_eq_fast, headerBytes_eq_prefix]
  simp

theorem getElem?_around (pre post : List Nat) (x y i : Nat) (hpre : pre.length = 28)
    (hi : i ≠ 28) : (pre ++ x :: post)[i]? = (pre ++ y :: post)[i]? := by
  by_cases h : i < 28
  · rw [List.getElem?_append_left (by omega), List.getElem?_append_left (by omega)]
  · rw [List.getElem?_append_right (by omega), List.getElem?_append_right (by omega), hpre]
    obtain ⟨k, hk⟩ : ∃ k, i - 28 = k + 1 := ⟨i - 29, by omega⟩
    rw [hk, List.getElem?_cons_succ, List.getElem?_cons_succ]

theorem getElem?_at (pre post : List Nat) (x : Nat) (hpre : pre.length = 28) :
    (pre ++ x :: post)[28]? = some x := by
  rw [List.getElem?_append_right (by omega), hpre]
  simp

/-- C11 (`Save` does not derive fingerprint bytes from the tag): for every
filter `f` and every tag byte `t`, the bytes `Save` writes for `f` and for `f`
with its tag replaced by `t` have the same length and are equal at every
offset other than 28; the byte at offset 28 is the respective tag. This holds
for both codecs, every native byte order and every width. -/
theorem C11_save_ignores_tag (native w : Nat) (f : BinaryFuse) (t : Nat)
    (hf : f.FingerprintsEndianness < 256) (ht : t < 256) :
    ((Portable.SaveBytes native w f).length =
        (Portable.SaveBytes native w { f with FingerprintsEndianness := t }).length ∧
      (∀ i, i ≠ 28 → (Portable.SaveBytes native w f)[i]? =
        (Portable.SaveBytes native w { f with FingerprintsEndianness := t })[i]?) ∧
      (Portable.SaveBytes native w f)[28]? = some f.FingerprintsEndianness ∧
      (Portable.SaveBytes native w { f with FingerprintsEndianness := t })[28]? = some t) ∧
    ((FastPath.SaveBytes native w f).length =
        (FastPath.SaveBytes native w { f with FingerprintsEndianness := t }).length ∧
      (∀ i, i ≠ 28 → (FastPath.SaveBytes native w f)[i]? =
        (FastPath.SaveBytes native w { f with FingerprintsEndianness := t })[i]?) ∧
      (FastPath.SaveBytes native w f)[28]? = some f.FingerprintsEndianness ∧
      (FastPath.SaveBytes native w { f with FingerprintsEndianness := t })[28]? = some t) := by
  have hf' : @HMod.hMod Nat Nat Nat _ f.FingerprintsEndianness 256 = f.FingerprintsEndianness :=
    Nat.mod_eq_of_lt hf
  have ht' : t % 256 = t := Nat.mod_eq_of_lt ht
  have hpre : ∀ order, headerPrefix order { f with FingerprintsEndianness := t } =
      headerPrefix order f := fun _ => rfl
  simp only [Portable.SaveBytes_split, FastPath.SaveBytes_split_fast, hpre, hf', ht']
  refine ⟨⟨by simp, fun i hi => getElem?_around _ _ _ _ i (by simp) hi,
    getElem?_at _ _ _ (by simp), getElem?_at _ _ _ (by simp)⟩,
    ⟨by simp, fun i hi => getElem?_around _ _ _ _ i (by simp) hi,
    getElem?_at _ _ _ (by simp), getElem?_at _ _ _ (by simp)⟩⟩

/-- The tag independence of C11 at a filter of two 16-bit fingerprints tagged
little-endian and re-tagged big-endian: the byte at offset 28 is the new tag
and the lengths agree. -/
theorem C11_save_ignores_tag_witness :
    (Portable.SaveBytes 0 2 ⟨7, 4, 3, 2, 1, [4660, 65535], 0⟩).length =
      (Portable.SaveBytes 0 2 ⟨7, 4, 3, 2, 1, [4660, 65535], 1⟩).length ∧
    (Portable.SaveBytes 0 2 ⟨7, 4, 3, 2, 1, [4660, 65535], 1⟩)[28]? = some 1 :=
  ⟨(C11_save_ignores_tag 0 2 ⟨7, 4, 3, 2, 1, [4660, 65535], 0⟩ 1 (by decide) (by decide)).1.1,
   (C11_save_ignores_tag 0 2 ⟨7, 4, 3, 2, 1, [4660, 65535], 0⟩ 1 (by decide)
      (by decide)).1.2.2.2⟩

/-! ## The native byte order in the bytes written -/

theorem memBytes_BigEndian (order n v : Nat) (h : order ≠ LittleEndian) :
    memBytes order n v = (memBytes LittleEndian n v).reverse := by
  simp [memBytes, h, beBytes]

/-- C12 as stated fails at a filter of one 16-bit fingerprint 4660: the
portable `Save` writes the fingerprint bytes `52, 18` on a little-endian host
and `18, 52` on a big-endian host. -/
theorem C12_counterexample :
    Portable.SaveBytes LittleEndian 2 ⟨1, 4, 3, 2, 1, [4660], 0⟩ =
      [1, 0, 0, 0, 0, 0, 0, 0, 4, 0, 0, 0, 3, 0, 0, 0, 2, 0, 0, 0, 1, 0, 0, 0,
       1, 0, 0, 0, 0, 52, 18] ∧
    Portable.SaveBytes BigEndian 2 ⟨1, 4, 3, 2, 1, [4660], 0⟩ =
      [1, 0, 0, 0, 0, 0, 0, 0, 4, 0, 0, 0, 3, 0, 0, 0, 2, 0, 0, 0, 1, 0, 0, 0,
       1, 0, 0, 0, 0, 18, 52] ∧
    Portable.SaveBytes LittleEndian 2 ⟨1, 4, 3, 2, 1, [4660], 0⟩ ≠
      Portable.SaveBytes BigEndian 2 ⟨1, 4, 3, 2, 1, [4660], 0⟩ := by
  decide

/-- C12, amended: for every filter and width 1, 2 or 4, the first 29 bytes
(seed, geometry, count and tag) and the length of the stream written by the
portable `Save` are the same under every native byte order, and at width 1 the
whole stream is. The fingerprints are written in native order: the bytes of
fingerprint `i` written on a big-endian host are the bytes written on a
little-endian host in reverse order. -/
theorem C12_header_host_independent (n1 n2 w : Nat) (f : BinaryFuse)
    (hw : w = 1 ∨ w = 2 ∨ w = 4) :
    (Portable.SaveBytes n1 w f).take 29 = (Portable.SaveBytes n2 w f).take 29 ∧
    (Portable.SaveBytes n1 w f).length = (Portable.SaveBytes n2 w f).length ∧
    (w = 1 → Portable.SaveBytes n1 w f = Portable.SaveBytes n2 w f) ∧
    ∀ i, i < f.Fingerprints.length →
      ((Portable.SaveBytes BigEndian w f).drop (29 + i * w)).take w =
        (((Portable.SaveBytes LittleEndian w f).drop (29 + i * w)).take w).reverse := by
  simp only [Portable.SaveBytes_eq _ w hw]
  refine ⟨?_, ?_, ?_, ?_⟩
  · rw [List.take_left' (length_headerBytes _ f), List.take_left' (length_headerBytes _ f)]
  · simp only [List.length_append, length_headerBytes, length_flatten_memBytes]
  · intro h1
    have hfun : memBytes n1 w = memBytes n2 w := by
      funext v
      rw [h1, memBytes_one, memBytes_one]
    rw [hfun]
  · intro i hi
    rw [← List.drop_drop, ← List.drop_drop, List.drop_left' (length_headerBytes _ f),
      List.drop_left' (length_headerBytes _ f)]
    have hB := flatten_slice (memBytes BigEndian w) w (length_memBytes BigEndian w)
      f.Fingerprints i hi []
    have hL := flatten_slice (memBytes LittleEndian w) w (length_memBytes LittleEndian w)
      f.Fingerprints i hi []
    rw [List.append_nil] at hB hL
    rw [hB, hL, memBytes_BigEndian BigEndian w _ (by decide)]

/-- The host independence of the header of C12 at a filter of one 16-bit
fingerprint, between a little-endian and a big-endian host. -/
theorem C12_header_host_independent_witness :
    (Portable.SaveBytes 0 2 ⟨1, 4, 3, 2, 1, [4660], 0⟩).take 29 =
      (Portable.SaveBytes 1 2 ⟨1, 4, 3, 2, 1, [4660], 0⟩).take 29 ∧
    (Portable.SaveBytes 0 2 ⟨1, 4, 3, 2, 1, [4660], 0⟩).length =
      (Portable.SaveBytes 1 2 ⟨1, 4, 3, 2, 1, [4660], 0⟩).length :=
  ⟨(C12_header_host_independent 0 1 2 ⟨1, 4, 3, 2, 1, [4660], 0⟩ (by decide)).1,
   (C12_header_host_independent 0 1 2 ⟨1, 4, 3, 2, 1, [4660], 0⟩ (by decide)).2.1⟩

/-! ## The error of a load from a short stream -/

theorem shortHeaderError_eq (len : Nat) (h : len < 29) :
    shortHeaderError len =
      if len = 0 ∨ len = 8 ∨ len = 12 ∨ len = 16 ∨ len = 20 ∨ len = 24 ∨ len = 28
      then GoError.EOF else GoError.ErrUnexpectedEOF := by
  interval_cases len <;> rfl

/-- The error of the portable load of a stream that ends before its header or
its declared fingerprints do. -/
theorem Portable.load_error (native w : Nat) (hw : w = 1 ∨ w = 2 ∨ w = 4)
    (b : List Nat) (c : Nat)
    (h : ¬ (29 ≤ b.length ∧ 29 + leValue ((b.drop 24).take 4) * w ≤ b.length)) :
    Portable.LoadBinaryFuse native w ⟨b, c⟩ =
      .error (if b.length < 29 then shortHeaderError b.length
        else shortReadError ((b.length - 29) % w)) := by
  have hc : countField LittleEndian b = leValue ((b.drop 24).take 4) := by
    simp [countField, memValue]
  by_cases h29 : 29 ≤ b.length
  · rw [Portable.LoadBinaryFuse_header _ _ _ _ h29,
      Portable.loadFingerprints_short native w hw _ _ 29 _ h29
        (by rw [hc]; exact Nat.lt_of_not_le (fun hle => h ⟨h29, hle⟩)),
      if_neg (by omega)]
  · rw [Portable.LoadBinaryFuse_short native w b c (by omega), if_pos (by omega)]

/-- The error of the fast-path load, on a little-endian host, of a stream that
ends before its header or its declared fingerprints do. -/
theorem FastPath.load_error_fast (w : Nat) (hw : w = 1 ∨ w = 2 ∨ w = 4)
    (b : List Nat) (c : Nat)
    (h : ¬ (29 ≤ b.length ∧ 29 + leValue ((b.drop 24).take 4) * w ≤ b.length)) :
    FastPath.LoadBinaryFuse LittleEndian w ⟨b, c⟩ =
      .error (if b.length < 29 then shortHeaderError b.length
        else shortReadError (b.length - 29)) := by
  have hw0 : 0 < w := by omega
  have hc : countField LittleEndian b = leValue ((b.drop 24).take 4) := by
    simp [countField, memValue]
  by_cases h29 : 29 ≤ b.length
  · have hlt : b.length < 29 + countField LittleEndian b * w := by
      rw [hc]; exact Nat.lt_of_not_le (fun hle => h ⟨h29, hle⟩)
    have hn : countField LittleEndian b > 0 := by
      rcases Nat.eq_zero_or_pos (countField LittleEndian b) with h0 | h0
      · rw [h0] at hlt; omega
      · exact h0
    rw [FastPath.LoadBinaryFuse_header_fast _ _ _ _ h29, if_pos hn,
      ReadFull_short _ 29 _ _ (Nat.mul_pos hn hw0) hlt, if_neg (by omega)]
  · rw [FastPath.LoadBinaryFuse_short_fast LittleEndian w b c (by omega), if_pos (by omega)]

/-- C13 as stated fails at the empty stream and at a stream of exactly eight
bytes: the stream ends at the start of a header field, and `LoadBinaryFuse`
returns `io.EOF`, not `io.ErrUnexpectedEOF`. -/
theorem C13_counterexample :
    loaded (Portable.LoadBinaryFuse LittleEndian 2 (source [])) = .error GoError.EOF ∧
    loaded (FastPath.LoadBinaryFuse LittleEndian 2 (source [])) = .error GoError.EOF ∧
    loaded (Portable.LoadBinaryFuse LittleEndian 2 (source [1, 0, 0, 0, 0, 0, 0, 0])) =
      .error GoError.EOF ∧
    loaded (FastPath.LoadBinaryFuse LittleEndian 2 (source [1, 0, 0, 0, 0, 0, 0, 0])) =
      .error GoError.EOF ∧
    GoError.EOF ≠ GoError.ErrUnexpectedEOF :=
  ⟨rfl, rfl, rfl, rfl, by decide⟩

/-- C13, amended: for every byte stream that ends before a header field or the
declared number of fingerprints has been fully read, and that does not end
on a fingerprint boundary after at least one fingerprint, `LoadBinaryFuse`
fails with `io.ErrUnexpectedEOF` when the stream ends inside a header field or
inside a fingerprint, and with `io.EOF` when it ends exactly at the start of a
header field or of the fingerprints (offsets 0, 8, 12, 16, 20, 24, 28 and 29;
the empty stream included). This holds for both codecs. -/
theorem C13_short_read_errors (native w : Nat) (b : List Nat)
    (hw : w = 1 ∨ w = 2 ∨ w = 4)
    (h : ¬ (29 ≤ b.length ∧ 29 + leValue ((b.drop 24).take 4) * w ≤ b.length))
    (hb : ¬ (29 < b.length ∧ (b.length - 29) % w = 0)) :
    loaded (Portable.LoadBinaryFuse native w (source b)) =
      .error (if b.length = 0 ∨ b.length = 8 ∨ b.length = 12 ∨ b.length = 16 ∨
          b.length = 20 ∨ b.length = 24 ∨ b.length = 28 ∨ b.length = 29
        then GoError.EOF else GoError.ErrUnexpectedEOF) ∧
    loaded (FastPath.LoadBinaryFuse LittleEndian w (source b)) =
      .error (if b.length = 0 ∨ b.length = 8 ∨ b.length = 12 ∨ b.length = 16 ∨
          b.length = 20 ∨ b.length = 24 ∨ b.length = 28 ∨ b.length = 29
        then GoError.EOF else GoError.ErrUnexpectedEOF) := by
  rw [source, Portable.load_error native w hw b 0 h, FastPath.load_error_fast w hw b 0 h]
  simp only [loaded]
  by_cases h29 : b.length < 29
  · rw [if_pos h29, shortHeaderError_eq _ h29]
    constructor <;> (split_ifs <;> first | rfl | omega)
  · rw [if_neg h29]
    simp only [shortReadError]
    rcases hw with rfl | rfl | rfl <;>
      (constructor <;> (split_ifs <;> first | rfl | omega))

/-- The errors of C13 at a stream of ten bytes, which ends inside the second
header field: both loads fail with `io.ErrUnexpectedEOF`. -/
theorem C13_short_read_errors_witness :
    loaded (Portable.LoadBinaryFuse 0 2 (source [1, 0, 0, 0, 0, 0, 0, 0, 4, 0])) =
      .error GoError.ErrUnexpectedEOF ∧
    loaded (FastPath.LoadBinaryFuse LittleEndian 2 (source [1, 0, 0, 0, 0, 0, 0, 0, 4, 0])) =
      .error GoError.ErrUnexpectedEOF :=
  C13_short_read_errors 0 2 [1, 0, 0, 0, 0, 0, 0, 0, 4, 0] (by decide) (by decide)
    (by decide)

/-- C14 (the two loaders have the same outcome on every input) does not hold
of the code: at a stream of 30 bytes whose count field is 2 at width 1, which
ends after the first fingerprint, the portable load fails with `io.EOF` and
the fast-path load with `io.ErrUnexpectedEOF`. -/
theorem C14_loaders_differ :
    loaded (Portable.LoadBinaryFuse LittleEndian 1 (source
      [1, 0, 0, 0, 0, 0, 0, 0, 4, 0, 0, 0, 3, 0, 0, 0, 2, 0, 0, 0, 1, 0, 0, 0,
       2, 0, 0, 0, 0, 5])) = .error GoError.EOF ∧
    loaded (FastPath.LoadBinaryFuse LittleEndian 1 (source
      [1, 0, 0, 0, 0, 0, 0, 0, 4, 0, 0, 0, 3, 0, 0, 0, 2, 0, 0, 0, 1, 0, 0, 0,
       2, 0, 0, 0, 0, 5])) = .error GoError.ErrUnexpectedEOF ∧
    GoError.EOF ≠ GoError.ErrUnexpectedEOF :=
  ⟨rfl, rfl, by decide⟩

/-! ## The bytes a load consumes -/

/-- C15 (load consumes exactly one encoding): for every filter whose fields
fit their machine types, of width 1, 2 or 4 and with fewer than 2^32
fingerprints, and every byte sequence `t`, `LoadBinaryFuse` of a source that
holds the bytes written by `Save` followed by `t` returns the filter saved and
leaves exactly `t` unread. More generally a successful load of a stream whose
count field is `c` consumes exactly the first `29 + c * w` bytes. This holds
for both codecs. -/
theorem C15_load_consumes_one_encoding (native w : Nat) (f : BinaryFuse)
    (hw : w = 1 ∨ w = 2 ∨ w = 4) (hf : f.InRange w)
    (hlen : f.Fingerprints.length < 2 ^ 32) :
    (∀ t, ∃ r, Portable.LoadBinaryFuse native w
        (source (Portable.SaveBytes native w f ++ t)) = .ok (f, r) ∧ r.data = t) ∧
    (∀ t, ∃ r, FastPath.LoadBinaryFuse native w
        (source (FastPath.SaveBytes native w f ++ t)) = .ok (f, r) ∧ r.data = t) ∧
    (∀ b F r, Portable.LoadBinaryFuse native w (source b) = .ok (F, r) →
      29 + leValue ((b.drop 24).take 4) * w ≤ b.length ∧
      r.data = b.drop (29 + leValue ((b.drop 24).take 4) * w)) ∧
    (∀ b F r, FastPath.LoadBinaryFuse LittleEndian w (source b) = .ok (F, r) →
      29 + leValue ((b.drop 24).take 4) * w ≤ b.length ∧
      r.data = b.drop (29 + leValue ((b.drop 24).take 4) * w)) := by
  refine ⟨?_, ?_, ?_, ?_⟩
  · intro t
    rw [Portable.SaveBytes_eq native w hw, List.append_assoc, source,
      Portable.load_encoding native w hw f hf hlen t 0]
    exact ⟨_, rfl, rfl⟩
  · intro t
    rw [FastPath.SaveBytes_eq_fast, List.append_assoc, source,
      FastPath.load_encoding_fast native w hw f hf hlen t 0]
    exact ⟨_, rfl, rfl⟩
  · intro b F r h
    by_cases hc : 29 ≤ b.length ∧ 29 + leValue ((b.drop 24).take 4) * w ≤ b.length
    · rw [source, Portable.load_complete native w hw b 0 hc] at h
      have h2 := (Prod.mk.inj (Except.ok.inj h)).2
      exact ⟨hc.2, by rw [← h2]⟩
    · obtain ⟨e, he⟩ := Portable.load_incomplete native w hw b 0 hc
      rw [source, he] at h
      cases h
  · intro b F r h
    by_cases hc : 29 ≤ b.length ∧ 29 + leValue ((b.drop 24).take 4) * w ≤ b.length
    · rw [source, FastPath.load_complete_fast w hw b 0 hc] at h
      have h2 := (Prod.mk.inj (Except.ok.inj h)).2
      exact ⟨hc.2, by rw [← h2]⟩
    · obtain ⟨e, he⟩ := FastPath.load_incomplete_fast w hw b 0 hc
      rw [source, he] at h
      cases h

/-- The consumption of C15 at the encoding of a filter of one 16-bit
fingerprint followed by the three bytes `9, 8, 7`: these are left unread. -/
theorem C15_load_consumes_one_encoding_witness :
    ∃ r, Portable.LoadBinaryFuse 0 2
        (source (Portable.SaveBytes 0 2 ⟨7, 4, 3, 2, 1, [4660], 1⟩ ++ [9, 8, 7])) =
          .ok (⟨7, 4, 3, 2, 1, [4660], 1⟩, r) ∧ r.data = [9, 8, 7] :=
  (C15_load_consumes_one_encoding 0 2 ⟨7, 4, 3, 2, 1, [4660], 1⟩ (by decide)
    (by simp [BinaryFuse.InRange]) (by decide)).1 [9, 8, 7]

/-! ## Values and their bytes -/

theorem leValue_lt (bs : List Nat) (hb : ∀ x ∈ bs, x < 256) :
    leValue bs < 256 ^ bs.length := by
  induction bs with
  | nil => simp [leValue]
  | cons x bs ih =>
    have hx := hb x (by simp)
    have := ih (fun y hy => hb y (by simp [hy]))
    simp only [leValue, List.length_cons, pow_succ]
    omega

theorem leBytes_leValue (n : Nat) (bs : List Nat) (hlen : bs.length = n)
    (hb : ∀ x ∈ bs, x < 256) : leBytes n (leValue bs) = bs := by
  induction bs generalizing n with
  | nil => subst hlen; rfl
  | cons x bs ih =>
    subst hlen
    have hx := hb x (by simp)
    simp only [List.length_cons, leBytes, leValue]
    have e1 : (x + 256 * leValue bs) % 256 = x := by omega
    have e2 : (x + 256 * leValue bs) / 256 = leValue bs := by omega
    rw [e1, e2, ih bs.length rfl (fun y hy => hb y (by simp [hy]))]

theorem memBytes_memValue (order n : Nat) (bs : List Nat) (hlen : bs.length = n)
    (hb : ∀ x ∈ bs, x < 256) : memBytes order n (memValue order bs) = bs := by
  unfold memBytes memValue
  split
  · exact leBytes_leValue n bs hlen hb
  · rw [beBytes, beValue, leBytes_leValue n bs.reverse (by simpa using hlen)
      (fun x hx => hb x (by simpa using hx))]
    simp

/-- The memory bytes of the values of a region are the bytes of the region. -/
theorem FastPath.flatten_regionValues (order w n : Nat) (d : List Nat)
    (hd : ∀ x ∈ d, x < 256) (h : n * w ≤ d.length) :
    ((FastPath.regionValues order w n d).map (memBytes order w)).flatten = d.take (n * w) := by
  induction n generalizing d with
  | zero => simp [FastPath.regionValues]
  | succ n ih =>
    rw [Nat.succ_mul] at h
    simp only [FastPath.regionValues, List.map_cons, List.flatten_cons]
    rw [memBytes_memValue order w (d.take w) (by simp; omega)
        (fun x hx => hd x (List.mem_of_mem_take hx)),
      ih (d.drop w) (fun x hx => hd x (List.mem_of_mem_drop hx)) (by simp; omega),
      Nat.succ_mul, Nat.add_comm (n * w) w, List.take_add]

/-! ## Saving a loaded filter -/

theorem decodeStream_fingerprints (native w : Nat) (b : List Nat) (h : 29 ≤ b.length) :
    (decodeStream native w b).Fingerprints =
      FastPath.regionValues native w (leValue ((b.drop 24).take 4)) (b.drop 29) := by
  have hc : countField LittleEndian b = leValue ((b.drop 24).take 4) := by
    simp [countField, memValue]
  have := congrArg BinaryFuse.Fingerprints (decodeHeader_eq_decodeStream native w b h)
  rw [hc] at this
  exact this.symm

/-- The header of the encoding of the filter a byte stream decodes to is the
header of the stream. -/
theorem headerBytes_decodeStream (native w : Nat) (b : List Nat) (hb : IsBytes b)
    (h : 29 ≤ b.length) :
    headerBytes LittleEndian (decodeStream native w b) = b.take 29 := by
  have hbt : ∀ k n x, x ∈ (b.drop k).take n → x < 256 :=
    fun k n x hx => hb x (List.mem_of_mem_drop (List.mem_of_mem_take hx))
  have hcount : (decodeStream native w b).Fingerprints.length % 2 ^ 32 =
      leValue ((b.drop 24).take 4) := by
    have hl : (decodeStream native w b).Fingerprints.length = leValue ((b.drop 24).take 4) := by
      simp [decodeStream]
    have := leValue_lt ((b.drop 24).take 4) (hbt 24 4)
    have h4 : ((b.drop 24).take 4).length = 4 := by simp; omega
    rw [h4] at this
    rw [hl]
    omega
  have htag : leBytes 1 (b.getD 28 0) = (b.drop 28).take 1 := by
    have hlt : 28 < b.length := by omega
    have hx : b[28] < 256 := hb _ (List.getElem_mem hlt)
    rw [List.getD_eq_getElem?_getD, List.getElem?_eq_getElem hlt, Option.getD_some,
      List.drop_eq_getElem_cons hlt, ← memBytes_LittleEndian, memBytes_one,
      Nat.mod_eq_of_lt hx]
    rfl
  have e29 : b.take 29 = b.take 8 ++ (b.drop 8).take 4 ++ (b.drop 12).take 4 ++
      (b.drop 16).take 4 ++ (b.drop 20).take 4 ++ (b.drop 24).take 4 ++
      (b.drop 28).take 1 := by
    rw [← List.take_add, ← List.take_add, ← List.take_add, ← List.take_add,
      ← List.take_add, ← List.take_add]
  rw [e29, headerBytes, hcount]
  simp only [decodeStream, memBytes_LittleEndian]
  rw [htag, leBytes_leValue 8 (b.take 8) (by simp; omega) (fun x hx => hb x (List.mem_of_mem_take hx)),
    leBytes_leValue 4 ((b.drop 8).take 4) (by simp; omega) (hbt 8 4),
    leBytes_leValue 4 ((b.drop 12).take 4) (by simp; omega) (hbt 12 4),
    leBytes_leValue 4 ((b.drop 16).take 4) (by simp; omega) (hbt 16 4),
    leBytes_leValue 4 ((b.drop 20).take 4) (by simp; omega) (hbt 20 4),
    leBytes_leValue 4 ((b.drop 24).take 4) (by simp; omega) (hbt 24 4)]

/-- The encoding of the filter a complete byte stream decodes to is the part
of the stream a load consumes. -/
theorem encoding_decodeStream (native w : Nat) (b : List Nat) (hb : IsBytes b)
    (h : 29 ≤ b.length ∧ 29 + leValue ((b.drop 24).take 4) * w ≤ b.length) :
    headerBytes LittleEndian (decodeStream native w b) ++
        ((decodeStream native w b).Fingerprints.map (memBytes native w)).flatten =
      b.take (29 + leValue ((b.drop 24).take 4) * w) := by
  rw [headerBytes_decodeStream native w b hb h.1, decodeStream_fingerprints native w b h.1,
    FastPath.flatten_regionValues native w _ (b.drop 29)
      (fun x hx => hb x (List.mem_of_mem_drop hx)) (by simp; omega),
    List.take_add]

/-- C16 (re-encoding is canonical): for every byte stream `b` and width 1, 2
or 4, if `LoadBinaryFuse` succeeds on `b` with the filter `F`, then `Save` of
`F` reports no error and writes exactly the first `29 + c * w` bytes of `b`,
`c` being the count field of `b`; so two streams that decode to the same
filter agree on the bytes their loads consume. This holds for the portable
codec under every native byte order and for the fast-path codec. -/
theorem C16_reencoding_is_canonical (native w : Nat) (b : List Nat) (F : BinaryFuse)
    (hw : w = 1 ∨ w = 2 ∨ w = 4) (hb : IsBytes b) :
    (loaded (Portable.LoadBinaryFuse native w (source b)) = .ok F →
      (Portable.Save native w F newBuffer).2 = none ∧
      Portable.SaveBytes native w F = b.take (29 + leValue ((b.drop 24).take 4) * w) ∧
      ∀ b2, IsBytes b2 → loaded (Portable.LoadBinaryFuse native w (source b2)) = .ok F →
        b2.take (29 + leValue ((b2.drop 24).take 4) * w) =
          b.take (29 + leValue ((b.drop 24).take 4) * w)) ∧
    (loaded (FastPath.LoadBinaryFuse LittleEndian w (source b)) = .ok F →
      (FastPath.Save LittleEndian w F newBuffer).2 = none ∧
      FastPath.SaveBytes LittleEndian w F =
        b.take (29 + leValue ((b.drop 24).take 4) * w) ∧
      ∀ b2, IsBytes b2 →
        loaded (FastPath.LoadBinaryFuse LittleEndian w (source b2)) = .ok F →
        b2.take (29 + leValue ((b2.drop 24).take 4) * w) =
          b.take (29 + leValue ((b.drop 24).take 4) * w)) := by
  have keyP : ∀ b1, IsBytes b1 →
      loaded (Portable.LoadBinaryFuse native w (source b1)) = .ok F →
      Portable.SaveBytes native w F = b1.take (29 + leValue ((b1.drop 24).take 4) * w) := by
    intro b1 hb1 h
    by_cases hc : 29 ≤ b1.length ∧ 29 + leValue ((b1.drop 24).take 4) * w ≤ b1.length
    · rw [(Portable.loaded_ok native w hw b1 F h).2, Portable.SaveBytes_eq native w hw]
      exact encoding_decodeStream native w b1 hb1 hc
    · obtain ⟨e, he⟩ := Portable.load_incomplete native w hw b1 0 hc
      rw [source, he, loaded] at h
      cases h
  have keyF : ∀ b1, IsBytes b1 →
      loaded (FastPath.LoadBinaryFuse LittleEndian w (source b1)) = .ok F →
      FastPath.SaveBytes LittleEndian w F =
        b1.take (29 + leValue ((b1.drop 24).take 4) * w) := by
    intro b1 hb1 h
    by_cases hc : 29 ≤ b1.length ∧ 29 + leValue ((b1.drop 24).take 4) * w ≤ b1.length
    · rw [(FastPath.loaded_ok_fast w hw b1 F h).2, FastPath.SaveBytes_eq_fast]
      exact encoding_decodeStream LittleEndian w b1 hb1 hc
    · obtain ⟨e, he⟩ := FastPath.load_incomplete_fast w hw b1 0 hc
      rw [source, he, loaded] at h
      cases h
  constructor
  · intro h
    refine ⟨by rw [Portable.Save_newBuffer], keyP b hb h, ?_⟩
    intro b2 hb2 h2
    rw [← keyP b hb h, ← keyP b2 hb2 h2]
  · intro h
    refine ⟨by rw [FastPath.Save_newBuffer_fast], keyF b hb h, ?_⟩
    intro b2 hb2 h2
    rw [← keyF b hb h, ← keyF b2 hb2 h2]

/-- The re-encoding of C16 at a stream of 31 bytes whose count field is 1 at
width 1 and whose tag byte is 7, with one trailing byte: `Save` of the loaded
filter writes the first 30 bytes. -/
theorem C16_reencoding_is_canonical_witness :
    Portable.SaveBytes 0 1 ⟨1, 4, 3, 2, 1, [52], 7⟩ =
      [1, 0, 0, 0, 0, 0, 0, 0, 4, 0, 0, 0, 3, 0, 0, 0, 2, 0, 0, 0, 1, 0, 0, 0,
       1, 0, 0, 0, 7, 52, 200].take
        (29 + leValue (([1, 0, 0, 0, 0, 0, 0, 0, 4, 0, 0, 0, 3, 0, 0, 0, 2, 0, 0, 0,
          1, 0, 0, 0, 1, 0, 0, 0, 7, 52, 200].drop 24).take 4) * 1) :=
  ((C16_reencoding_is_canonical 0 1
    [1, 0, 0, 0, 0, 0, 0, 0, 4, 0, 0, 0, 3, 0, 0, 0, 2, 0, 0, 0, 1, 0, 0, 0,
     1, 0, 0, 0, 7, 52, 200] ⟨1, 4, 3, 2, 1, [52], 7⟩ (by decide)
    (by unfold IsBytes; decide)).1 rfl).2.1

/-! ## Loading a header followed by any bytes -/

/-- The values a region holds when it was written in the byte order `o2` and
is read in the byte order `o1`. -/
theorem FastPath.regionValues_cross (o1 o2 w : Nat) (fps t : List Nat) :
    FastPath.regionValues o1 w fps.length ((fps.map (memBytes o2 w)).flatten ++ t) =
      fps.map (fun v => memValue o1 (memBytes o2 w v)) := by
  induction fps with
  | nil => rfl
  | cons fp fps ih =>
    simp only [List.length_cons, FastPath.regionValues, List.map_cons, List.flatten_cons,
      List.append_assoc]
    rw [List.take_left' (length_memBytes o2 w fp), List.drop_left' (length_memBytes o2 w fp), ih]

/-- The first `m` values of a region that holds the memory bytes of `fps`. -/
theorem FastPath.regionValues_flatten_take (order w : Nat) (fps t : List Nat) (m : Nat)
    (hm : m ≤ fps.length) (h : ∀ fp ∈ fps, fp < 2 ^ (8 * w)) :
    FastPath.regionValues order w m ((fps.map (memBytes order w)).flatten ++ t) =
      fps.take m := by
  have hsplit : (fps.map (memBytes order w)).flatten ++ t =
      ((fps.take m).map (memBytes order w)).flatten ++
        (((fps.drop m).map (memBytes order w)).flatten ++ t) := by
    rw [← List.append_assoc, ← List.flatten_append, ← List.map_append, List.take_append_drop]
  have hlen : (fps.take m).length = m := by simp [hm]
  have := FastPath.regionValues_memBytes order w (fps.take m)
    (((fps.drop m).map (memBytes order w)).flatten ++ t)
    (fun fp hfp => h fp (List.mem_of_mem_take hfp))
  rw [hlen] at this
  rw [hsplit, this]

/-- The portable load of the header of `f` followed by at least as many bytes
as its count field declares. -/
theorem Portable.load_header_any (native w : Nat) (hw : w = 1 ∨ w = 2 ∨ w = 4)
    (f : BinaryFuse) (hf : f.InRange w) (d : List Nat) (c : Nat)
    (h : f.Fingerprints.length % 2 ^ 32 * w ≤ d.length) :
    Portable.LoadBinaryFuse native w ⟨headerBytes LittleEndian f ++ d, c⟩ =
      .ok ({ f with Fingerprints :=
              FastPath.regionValues native w (f.Fingerprints.length % 2 ^ 32) d },
        ⟨d.drop (f.Fingerprints.length % 2 ^ 32 * w),
          c + 7 + f.Fingerprints.length % 2 ^ 32⟩) := by
  rw [Portable.LoadBinaryFuse_header _ _ _ _ (by simp), countField_headerBytes,
    Portable.loadFingerprints_ok native w hw _ _ 29 _
      (by simp only [List.length_append, length_headerBytes]; omega)]
  simp only []
  rw [List.drop_left' (length_headerBytes _ f), decodeHeader_headerBytes LittleEndian w f hf,
    ← List.drop_drop, List.drop_left' (length_headerBytes _ f)]

/-- The fast-path load of the header of `f` followed by at least as many bytes
as its count field declares. -/
theorem FastPath.load_header_any_fast (order w : Nat) (hw : w = 1 ∨ w = 2 ∨ w = 4)
    (f : BinaryFuse) (hf : f.InRange w) (d : List Nat) (c : Nat)
    (h : f.Fingerprints.length % 2 ^ 32 * w ≤ d.length) :
    ∃ r, FastPath.LoadBinaryFuse order w ⟨headerBytes order f ++ d, c⟩ =
      .ok ({ f with Fingerprints :=
              FastPath.regionValues order w (f.Fingerprints.length % 2 ^ 32) d }, r) ∧
      r.data = d.drop (f.Fingerprints.length % 2 ^ 32 * w) := by
  have hw0 : 0 < w := by omega
  rw [FastPath.LoadBinaryFuse_header_fast _ _ _ _ (by simp), countField_headerBytes]
  by_cases hn : f.Fingerprints.length % 2 ^ 32 > 0
  · rw [if_pos hn, ReadFull_ok _ 29 _ _ (Nat.mul_pos hn hw0)
      (by simp only [List.length_append, length_headerBytes]; omega)]
    simp only []
    rw [List.drop_left' (length_headerBytes _ f), decodeHeader_headerBytes order w f hf,
      FastPath.regionValues_take _ _ _ _ _ (Nat.le_refl _),
      ← List.drop_drop, List.drop_left' (length_headerBytes _ f)]
    exact ⟨_, rfl, rfl⟩
  · have h0 : f.Fingerprints.length % 2 ^ 32 = 0 := by omega
    rw [if_neg hn, decodeHeader_headerBytes order w f hf,
      List.drop_left' (length_headerBytes _ f), h0]
    exact ⟨_, rfl, by simp⟩

/-! ## The count field at 2^32 fingerprints and more -/

theorem countBytes_headerBytes (order : Nat) (f : BinaryFuse) (t : List Nat) :
    (List.drop 24 (headerBytes order f ++ t)).take 4 =
      memBytes order 4 (f.Fingerprints.length % 2 ^ 32) := by
  simp [headerBytes, List.drop_append_eq_append_drop, List.take_append_eq_append_take]

/-- C17 (the count field wraps at 32 bits): for every filter whose fields fit
their machine types, of width 1, 2 or 4 and with `n ≥ 2^32` fingerprints,
`Save` writes `n mod 2^32` in the count field and all `n` fingerprints, the
output having `29 + n * w` bytes; `LoadBinaryFuse` of the output succeeds and
returns the filter with only its first `n mod 2^32` fingerprints, which is not
the filter saved. This holds for both codecs. -/
theorem C17_count_wraps (native w : Nat) (f : BinaryFuse) (hw : w = 1 ∨ w = 2 ∨ w = 4)
    (hf : f.InRange w) (hn : 2 ^ 32 ≤ f.Fingerprints.length) :
    ((Portable.SaveBytes native w f).length = 29 + f.Fingerprints.length * w ∧
      ((Portable.SaveBytes native w f).drop 24).take 4 =
        littleEndian 4 (f.Fingerprints.length % 2 ^ 32) ∧
      loaded (Portable.LoadBinaryFuse native w (source (Portable.SaveBytes native w f))) =
        .ok { f with Fingerprints :=
                f.Fingerprints.take (f.Fingerprints.length % 2 ^ 32) }) ∧
    ((FastPath.SaveBytes LittleEndian w f).length = 29 + f.Fingerprints.length * w ∧
      ((FastPath.SaveBytes LittleEndian w f).drop 24).take 4 =
        littleEndian 4 (f.Fingerprints.length % 2 ^ 32) ∧
      loaded (FastPath.LoadBinaryFuse LittleEndian w
        (source (FastPath.SaveBytes LittleEndian w f))) =
        .ok { f with Fingerprints :=
                f.Fingerprints.take (f.Fingerprints.length % 2 ^ 32) }) ∧
    ({ f with Fingerprints := f.Fingerprints.take (f.Fingerprints.length % 2 ^ 32) } :
      BinaryFuse) ≠ f := by
  have hm : f.Fingerprints.length % 2 ^ 32 ≤ f.Fingerprints.length := Nat.mod_le _ _
  have hbody : ∀ order, f.Fingerprints.length % 2 ^ 32 * w ≤
      ((f.Fingerprints.map (memBytes order w)).flatten).length := by
    intro order
    rw [length_flatten_memBytes]
    exact Nat.mul_le_mul_right w hm
  have hvals : ∀ order, FastPath.regionValues order w (f.Fingerprints.length % 2 ^ 32)
      ((f.Fingerprints.map (memBytes order w)).flatten) =
        f.Fingerprints.take (f.Fingerprints.length % 2 ^ 32) := by
    intro order
    have := FastPath.regionValues_flatten_take order w f.Fingerprints [] _ hm hf.2.2.2.2.2.2
    rwa [List.append_nil] at this
  refine ⟨⟨?_, ?_, ?_⟩, ⟨?_, ?_, ?_⟩, ?_⟩
  · rw [Portable.SaveBytes_eq native w hw]
    simp only [List.length_append, length_headerBytes, length_flatten_memBytes]
  · rw [Portable.SaveBytes_eq native w hw, countBytes_headerBytes, memBytes_LittleEndian,
      leBytes_eq_littleEndian]
  · rw [Portable.SaveBytes_eq native w hw, source,
      Portable.load_header_any native w hw f hf _ 0 (hbody native), loaded, hvals]
  · rw [FastPath.SaveBytes_eq_fast]
    simp only [List.length_append, length_headerBytes, length_flatten_memBytes]
  · rw [FastPath.SaveBytes_eq_fast, countBytes_headerBytes, memBytes_LittleEndian,
      leBytes_eq_littleEndian]
  · obtain ⟨r, hr, _⟩ := FastPath.load_header_any_fast LittleEndian w hw f hf _ 0
      (hbody LittleEndian)
    rw [FastPath.SaveBytes_eq_fast, source, hr, loaded, hvals]
  · intro heq
    have h2 := congrArg (fun g => g.Fingerprints.length) heq
    simp only [List.length_take] at h2
    have hlt : f.Fingerprints.length % 2 ^ 32 < 2 ^ 32 := Nat.mod_lt _ (by norm_num)
    omega

/-- The wrap of C17 at the filter of 2^32 one-byte fingerprints: the output
has 29 + 2^32 bytes and the load returns a filter of no fingerprints. -/
theorem C17_count_wraps_witness :
    (Portable.SaveBytes 0 1 wrapFilter).length = 29 + wrapFilter.Fingerprints.length * 1 ∧
    loaded (Portable.LoadBinaryFuse 0 1 (source (Portable.SaveBytes 0 1 wrapFilter))) =
      .ok { wrapFilter with Fingerprints :=
              wrapFilter.Fingerprints.take (wrapFilter.Fingerprints.length % 2 ^ 32) } :=
  ⟨(C17_count_wraps 0 1 wrapFilter (by decide) wrapFilter_inRange
      (Nat.le_of_eq wrapFilter_length.symm)).1.1,
   (C17_count_wraps 0 1 wrapFilter (by decide) wrapFilter_inRange
      (Nat.le_of_eq wrapFilter_length.symm)).1.2.2⟩

/-! ## Exchange between hosts of opposite byte order -/

theorem memValue_BigEndian_memBytes (w v : Nat) :
    memValue BigEndian (memBytes LittleEndian w v) = byteReversal w v := by
  simp [memValue, memBytes, byteReversal]

theorem memValue_LittleEndian_memBytes (w v : Nat) :
    memValue LittleEndian (memBytes BigEndian w v) = byteReversal w v := by
  simp [memValue, memBytes, byteReversal, beBytes, beValue]

/-- C18 as stated fails at the filter of 2^32 one-byte fingerprints: the
bytes saved on a little-endian host carry the count field 0, and the load on a
big-endian host returns a filter of no fingerprints, not of 2^32. -/
theorem C18_counterexample :
    wrapFilter.InRange 1 ∧
    loaded (Portable.LoadBinaryFuse BigEndian 1
      (source (Portable.SaveBytes LittleEndian 1 wrapFilter))) =
        .ok { wrapFilter with Fingerprints := [] } ∧
    ({ wrapFilter with Fingerprints := [] } : BinaryFuse).Fingerprints.length ≠
      wrapFilter.Fingerprints.length := by
  refine ⟨wrapFilter_inRange, ?_, ?_⟩
  · rw [Portable.SaveBytes_eq LittleEndian 1 (by decide), source,
      Portable.load_count_zero BigEndian 1 wrapFilter wrapFilter_inRange
        (by rw [wrapFilter_length]; norm_num), loaded]
  · rw [wrapFilter_length]
    simp

/-- C18 (exchange between hosts of opposite native byte order), amended: with
the portable codec, for every filter whose fields fit their machine types, of
width 1, 2 or 4 and with fewer than 2^32 fingerprints, the load on a
big-endian host of the bytes saved on a little-endian host, and the reverse,
succeed and return the same seed, geometry fields, fingerprint count and tag,
with every fingerprint the byte-reversal of the original; at width 1 that is
the original. -/
theorem C18_cross_host_exchange (w : Nat) (f : BinaryFuse) (hw : w = 1 ∨ w = 2 ∨ w = 4)
    (hf : f.InRange w) (hlen : f.Fingerprints.length < 2 ^ 32) :
    loaded (Portable.LoadBinaryFuse BigEndian w
      (source (Portable.SaveBytes LittleEndian w f))) =
        .ok { f with Fingerprints := f.Fingerprints.map (byteReversal w) } ∧
    loaded (Portable.LoadBinaryFuse LittleEndian w
      (source (Portable.SaveBytes BigEndian w f))) =
        .ok { f with Fingerprints := f.Fingerprints.map (byteReversal w) } ∧
    (f.Fingerprints.map (byteReversal w)).length = f.Fingerprints.length ∧
    (w = 1 → f.Fingerprints.map (byteReversal w) = f.Fingerprints) := by
  have hmod : f.Fingerprints.length % 2 ^ 32 = f.Fingerprints.length := Nat.mod_eq_of_lt hlen
  have hbody : ∀ order, f.Fingerprints.length % 2 ^ 32 * w ≤
      ((f.Fingerprints.map (memBytes order w)).flatten).length := by
    intro order
    rw [length_flatten_memBytes, hmod]
  have hcross : ∀ o1 o2, FastPath.regionValues o1 w (f.Fingerprints.length % 2 ^ 32)
      ((f.Fingerprints.map (memBytes o2 w)).flatten) =
        f.Fingerprints.map (fun v => memValue o1 (memBytes o2 w v)) := by
    intro o1 o2
    have := FastPath.regionValues_cross o1 o2 w f.Fingerprints []
    rw [List.append_nil] at this
    rw [hmod, this]
  refine ⟨?_, ?_, by simp, ?_⟩
  · rw [Portable.SaveBytes_eq LittleEndian w hw, source,
      Portable.load_header_any BigEndian w hw f hf _ 0 (hbody LittleEndian), loaded,
      hcross BigEndian LittleEndian]
    simp only [memValue_BigEndian_memBytes]
  · rw [Portable.SaveBytes_eq BigEndian w hw, source,
      Portable.load_header_any LittleEndian w hw f hf _ 0 (hbody BigEndian), loaded,
      hcross LittleEndian BigEndian]
    simp only [memValue_LittleEndian_memBytes]
  · intro h1
    subst h1
    have hfp := hf.2.2.2.2.2.2
    have hid : f.Fingerprints.map (byteReversal 1) = f.Fingerprints.map id := by
      apply List.map_congr_left
      intro v hv
      have hv' : v < 256 := by simpa using hfp v hv
      simp [byteReversal, beValue, leBytes, leValue, Nat.mod_eq_of_lt hv']
    rw [hid, List.map_id]

/-- The exchange of C18 at a filter of two 16-bit fingerprints saved on a
little-endian host and loaded on a big-endian host: 4660 is loaded as 13330
and 1 as 256. -/
theorem C18_cross_host_exchange_witness :
    loaded (Portable.LoadBinaryFuse BigEndian 2
      (source (Portable.SaveBytes LittleEndian 2 ⟨7, 4, 3, 2, 1, [4660, 1], 0⟩))) =
        .ok { (⟨7, 4, 3, 2, 1, [4660, 1], 0⟩ : BinaryFuse) with
              Fingerprints := [4660, 1].map (byteReversal 2) } ∧
    [4660, 1].map (byteReversal 2) = [13330, 256] :=
  ⟨(C18_cross_host_exchange 2 ⟨7, 4, 3, 2, 1, [4660, 1], 0⟩ (by decide)
      (by simp [BinaryFuse.InRange]) (by decide)).1, by decide⟩

end XorFilter
